import Mathlib

/-!
Verification of the beam-search decoder in `module/inference/beam_search.py`
(class `BeamSearch`).

The tensor code is shallowly embedded over lists:

* a `(rows, cols)` tensor of token ids becomes `List (List ℤ)` (token ids are
  `ℤ` because the source writes the sentinel id `-1` into `ix_rep`);
* probabilities are exact rationals `ℚ`;
* log-scores live in `WithBot ℚ`: the source builds `probs_rep` with the
  literal `1e-100` inside `torch.Tensor([...])`, which is a float32 tensor, and
  `1e-100` underflows to exactly `0.0` in float32, so `torch.log` of it is
  `-inf`.  `⊥` models `-inf`, and `WithBot` addition (`⊥ + x = ⊥`) models
  float addition with `-inf`;
* `torch.log` itself is abstracted by a `LogModel`: any monotone function
  `lg : ℚ → WithBot ℚ` with `lg 1 = 0`, `lg 0 = ⊥` and `lg p ≠ ⊥` for `p > 0`
  (the properties of the mathematical `log` that the decoder relies on);
* fallible tensor operations (`topk` with `k` larger than the dimension, shape
  mismatches in `view`/broadcasting, the numpy `ValueError` raised by the truth
  value of a multi-element array) return `Except TErr` / `Option`.

`torch.topk` (sorted, descending) is modelled by a stable insertion sort on
`(index, value)` pairs followed by `take k`; `np.argsort` (ascending) the same
way.  Tie order in the real libraries is unspecified; every concrete input
used below has distinct values, so the modelling choice is irrelevant there.
-/

/-! ## Top-k selection (model of `torch.topk(k)` on the last dimension) -/

/-! ## Reshaping helpers (models of `Tensor.view` / `ndarray.reshape`) -/

/-! ## Flattening uniform-length rows -/

/-! ## The log model and error type -/

/-! ## `compute_k_best` (source lines 74-119) -/

/-! ## Structural lemmas about one `compute_k_best` step -/

/-! ## A concrete log model for witnesses and counterexamples -/
/-- Order on `(index, value)` pairs: larger value first, ties broken towards
the smaller index.  Sorting `l.enum` by this order and taking `k` gives the
top-`k` values of `l` together with their indices, values descending. -/
def keyLe {α : Type} [LinearOrder α] (x y : ℕ × α) : Prop :=
  y.2 < x.2 ∨ (x.2 = y.2 ∧ x.1 ≤ y.1)

instance {α : Type} [LinearOrder α] : DecidableRel (@keyLe α _) := fun x y =>
  inferInstanceAs (Decidable (y.2 < x.2 ∨ (x.2 = y.2 ∧ x.1 ≤ y.1)))

instance {α : Type} [LinearOrder α] : IsTrans (ℕ × α) keyLe := by
  constructor
  rintro a b c (hab | ⟨hab, hab'⟩) (hbc | ⟨hbc, hbc'⟩)
  · exact Or.inl (lt_trans hbc hab)
  · exact Or.inl (hbc ▸ hab)
  · exact Or.inl (hab ▸ hbc)
  · exact Or.inr ⟨hab.trans hbc, hab'.trans hbc'⟩

instance {α : Type} [LinearOrder α] : IsTotal (ℕ × α) keyLe := by
  constructor
  intro a b
  rcases lt_trichotomy a.2 b.2 with h | h | h
  · exact Or.inr (Or.inl h)
  · rcases Nat.le_total a.1 b.1 with h' | h'
    · exact Or.inl (Or.inr ⟨h, h'⟩)
    · exact Or.inr (Or.inr ⟨h.symm, h'⟩)
  · exact Or.inl (Or.inl h)

/-- `torch.topk(l, k)`: the `k` largest entries of `l` as `(index, value)`
pairs, values sorted descending (stable on ties). -/
def topkPairs {α : Type} [LinearOrder α] (l : List α) (k : ℕ) : List (ℕ × α) :=
  (l.enum.insertionSort keyLe).take k

/-- Chunking worker, structurally recursive on a fuel bounding the list
length (so that it unfolds by `rfl`/`decide`). -/
def groupsOfAux {α : Type} (m : ℕ) : ℕ → List α → List (List α)
  | 0, _ => []
  | _ + 1, [] => []
  | fuel + 1, a :: l => ((a :: l).take m) :: groupsOfAux m fuel ((a :: l).drop m)

/-- Split a list into consecutive chunks of size `m` (row-major `view`). -/
def groupsOf {α : Type} (m : ℕ) (l : List α) : List (List α) :=
  if m = 0 then [] else groupsOfAux m l.length l

/-- Abstraction of `torch.log` / `math.log` on float32 values, mapping into
`WithBot ℚ` (`⊥` = `-inf`).  The fields are the only properties of the
logarithm the decoder relies on. -/
structure LogModel where
  lg : ℚ → WithBot ℚ
  lg_one : lg 1 = 0
  lg_zero : lg 0 = ⊥
  lg_pos : ∀ p : ℚ, 0 < p → lg p ≠ ⊥
  lg_mono : Monotone lg

/-- Runtime failures of the embedded tensor code.

* `topkOutOfRange`: `torch.topk(k)` with `k` larger than the last dimension;
* `dimensionMismatch`: a shape error from `view` / broadcasting (the source
  has no explicit check; the `RuntimeError` raised by
  `check_eos = ....view(row_b, 1)` at line 98 when `len(outputs) ≠ len(out)`
  plays the role the spec calls `DimensionMismatch`);
* `indexError`: writing column 1 of a `max_len < 2` tensor;
* `ambiguousTruth`: the numpy `ValueError` raised by `bool()` of a
  multi-element index array inside `_length`;
* `valueError`: the numpy `ValueError` raised by `.reshape` when the array's
  size does not match the requested shape (the `replaced.reshape
  (outputs.shape)` at line 157). -/
inductive TErr where
  | topkOutOfRange
  | dimensionMismatch
  | indexError
  | ambiguousTruth
  | valueError
deriving DecidableEq, Repr

/-- `out[:, -1]`: per-row distribution at the last position of the decoder
output `out : [rows, tgt_len, vocab]`. -/
def lastDists (out : List (List (List ℚ))) : List (List ℚ) :=
  out.map (fun r => r.getLastD [])

/-- Inputs of one `compute_k_best` step, bundled. -/
structure StepIn where
  M : LogModel
  K : ℕ
  eos : ℤ
  outputs : List (List ℤ)
  out : List (List (List ℚ))
  logScores : List (WithBot ℚ)
  i : ℕ

/-- `probs, ix = out[:, -1].data.topk(self.beam_size)` (line 91), per row. -/
def stepPix (s : StepIn) : List (List (ℕ × ℚ)) :=
  (lastDists s.out).map (fun d => topkPairs d s.K)

/-- `outputs[:, i - 1] == eos_id` (line 98): row `r` is finished. -/
def rowFinished (s : StepIn) (r : ℕ) : Bool :=
  decide ((s.outputs.getD r []).getD (s.i - 1) 0 = s.eos)

/-- `probs = torch.where(check_eos, probs_rep, probs)` (lines 93, 100): the
row's top-`K` probabilities after the finished-row mask.  `probs_rep` is
`[1] + [1e-100] * (K - 1)` built with `torch.Tensor`, i.e. float32, in which
`1e-100` rounds to exactly `0`. -/
def maskedProbs (s : StepIn) (r : ℕ) : List ℚ :=
  if rowFinished s r then 1 :: List.replicate (s.K - 1) 0
  else ((stepPix s).getD r []).map Prod.snd

/-- `ix = torch.where(check_eos, ix_rep, ix)` (lines 95, 101): the row's
top-`K` token ids after the finished-row mask (`ix_rep = [eos] + [-1]*(K-1)`). -/
def maskedToks (s : StepIn) (r : ℕ) : List ℤ :=
  if rowFinished s r then s.eos :: List.replicate (s.K - 1) (-1)
  else ((stepPix s).getD r []).map (fun p => (p.1 : ℤ))

/-- Row `r` of `log_probs = torch.log(probs) + log_scores` (line 106). -/
def candRow (s : StepIn) (r : ℕ) : List (WithBot ℚ) :=
  (maskedProbs s r).map (fun p => s.M.lg p + s.logScores.getD r ⊥)

/-- The full `log_probs` matrix (line 106), rows indexed like `out`. -/
def stepLogProbs (s : StepIn) : List (List (WithBot ℚ)) :=
  (List.range s.out.length).map (candRow s)

/-- `k_probs, k_ix = log_probs.view(batch_size, -1).topk(self.beam_size)`
(line 108): per batch item `b`, the selected `(flat index, score)` pairs. -/
def stepSel (s : StepIn) (b : ℕ) : List (ℕ × WithBot ℚ) :=
  topkPairs ((groupsOf (s.K * s.K) (stepLogProbs s).flatten).getD b []) s.K

/-- `row = k_ix // self.beam_size + v * self.beam_size` flattened (line 112):
the parent row of result row `r`. -/
def stepParent (s : StepIn) (r : ℕ) : ℕ :=
  (r / s.K) * s.K + ((stepSel s (r / s.K)).getD (r % s.K) (0, ⊥)).1 / s.K

/-- `col = k_ix % self.beam_size` flattened (line 113). -/
def stepCol (s : StepIn) (r : ℕ) : ℕ :=
  ((stepSel s (r / s.K)).getD (r % s.K) (0, ⊥)).1 % s.K

/-- `outputs[:, :i] = outputs[row.view(-1), :i]; outputs[:, i] = ix[row, col]`
(lines 115-116): row `r` of the updated `outputs` keeps columns `> i` of the
old row `r`, takes columns `< i` from the parent row, and writes the selected
token at column `i`. -/
def stepNewOutputs (s : StepIn) : List (List ℤ) :=
  (List.range s.out.length).map (fun r =>
    (s.outputs.getD (stepParent s r) []).take s.i
      ++ [(maskedToks s (stepParent s r)).getD (stepCol s r) 0]
      ++ (s.outputs.getD r []).drop (s.i + 1))

/-- `log_scores = k_probs.view(-1, 1)` (line 117): the `[batch, K]` matrix of
selected scores flattened row-major. -/
def stepNewScores (s : StepIn) : List (WithBot ℚ) :=
  ((List.range (s.out.length / s.K)).map (fun b => (stepSel s b).map Prod.snd)).flatten

/-- `compute_k_best` (lines 74-119).  The error cases mirror, in source
order, the `RuntimeError`s of: `topk` at line 91, the `.view(row_b, 1)` at
line 98 (shape `len(outputs)` vs `row_b = len(out)`), the broadcast
`torch.log(probs) + log_scores` at line 106, and `.view(batch_size, -1)` at
line 108. -/
def computeKBest (M : LogModel) (K : ℕ) (eos : ℤ) (outputs : List (List ℤ))
    (out : List (List (List ℚ))) (logScores : List (WithBot ℚ)) (i : ℕ) :
    Except TErr (List (List ℤ) × List (WithBot ℚ)) :=
  if ¬ (∀ d ∈ lastDists out, K ≤ d.length) then .error .topkOutOfRange
  else if outputs.length ≠ out.length then .error .dimensionMismatch
  else if logScores.length ≠ out.length then .error .dimensionMismatch
  else if (out.length / K) * K ≠ out.length then .error .dimensionMismatch
  else
    .ok (stepNewOutputs ⟨M, K, eos, outputs, out, logScores, i⟩,
         stepNewScores ⟨M, K, eos, outputs, out, logScores, i⟩)

/-- Well-formed step input: `B` batch items, beam width `K ≥ 1`, all row
counts equal to `B*K`, and every vocabulary distribution wide enough for
`topk(K)`. -/
abbrev StepWF (s : StepIn) (B : ℕ) : Prop :=
  1 ≤ s.K ∧ s.outputs.length = B * s.K ∧ s.out.length = B * s.K ∧
    s.logScores.length = B * s.K ∧ ∀ d ∈ lastDists s.out, s.K ≤ d.length

/-- The `K*K` combined candidate scores of batch item `b`, in flat row-major
order: candidate `q` comes from parent row `b*K + q/K`, slot `q%K`. -/
def candList (s : StepIn) (b : ℕ) : List (WithBot ℚ) :=
  ((List.range s.K).map (fun j => candRow s (b * s.K + j))).flatten

/-- A concrete monotone stand-in for `log` on exact rationals: `p - 1` for
positive `p` (the first-order expansion of `log` at `1`), `⊥` (`-inf`)
otherwise.  It satisfies every `LogModel` field. -/
def lgW (p : ℚ) : WithBot ℚ := if p ≤ 0 then ⊥ else ((p - 1 : ℚ) : WithBot ℚ)

def Mw : LogModel where
  lg := lgW
  lg_one := by norm_num [lgW]
  lg_zero := by norm_num [lgW]
  lg_pos := by
    intro p hp
    rw [lgW, if_neg (by linarith)]
    exact WithBot.coe_ne_bot
  lg_mono := by
    intro a b hab
    by_cases ha : a ≤ 0
    · rw [lgW, if_pos ha]
      exact bot_le
    · have hb : ¬ b ≤ 0 := by
        push_neg at ha ⊢
        linarith
      rw [lgW, lgW, if_neg ha, if_neg hb]
      exact WithBot.coe_le_coe.2 (by linarith)
/-- Concrete decoder distributions (one position per row, vocabulary 5) for a
`B = 1`, `K = 2` step in which neither beam is finished and the first parent
beam wins both surviving slots. -/
def outEx1 : List (List (List ℚ)) :=
  [[[1/20, 1/20, 1/10, 1/2, 3/10]], [[1/10, 1/5, 3/10, 3/20, 1/4]]]

/-- Step input for `outEx1`: `<sos> = 1`, `<eos> = 2`, timestep `i = 2`,
prior scores `0` and `-10`. -/
def sEx1 : StepIn :=
  ⟨Mw, 2, 2, [[1, 3, 0, 0], [1, 4, 0, 0]], outEx1,
    [(0 : WithBot ℚ), ((-10 : ℚ) : WithBot ℚ)], 2⟩

/-- Distributions for a step in which row 0 is already finished (its column-1
token is `<eos> = 2`) but carries a much lower prior score than live row 1. -/
def outEx2 : List (List (List ℚ)) :=
  [[[1/5, 1/5, 1/5, 1/5, 1/5]], [[1/20, 1/20, 1/10, 1/2, 3/10]]]

/-- Step input for `outEx2`: the finished row 0 has prior `-10`, the live
row 1 has prior `0`, so both of row 1's candidates out-compete row 0's
`<eos>` candidate. -/
def sEx2 : StepIn :=
  ⟨Mw, 2, 2, [[1, 2, 0, 0], [1, 3, 0, 0]], outEx2,
    [((-10 : ℚ) : WithBot ℚ), (0 : WithBot ℚ)], 2⟩

/-- One loop iteration (source lines 187-192): decoder (abstracted as `dec`,
applied to the current prefixes `outputs[:, :i]` and already softmaxed)
followed by `compute_k_best`. -/
def searchStep (M : LogModel) (K : ℕ) (eos : ℤ)
    (dec : ℕ → List (List ℤ) → List (List (List ℚ)))
    (i : ℕ) (st : List (List ℤ) × List (WithBot ℚ)) :
    Except TErr (List (List ℤ) × List (WithBot ℚ)) :=
  computeKBest M K eos st.1 (dec i (st.1.map (List.take i))) st.2 i

/-- `torch.equal(outputs[:, i], is_finished)` (source lines 184, 195):
`is_finished` is the constant vector `[eos] * (K * B)`; `torch.equal`
compares shape and values, which list equality against `replicate` models. -/
def finCheck (eos : ℤ) (nrows i : ℕ) (outs : List (List ℤ)) : Bool :=
  decide (outs.map (fun r => r.getD i 0) = List.replicate nrows eos)

/-- The `for i in range(2, max_len)` loop with its early `break`
(source lines 186-196), recursion on the remaining iteration count. -/
def searchFuel (M : LogModel) (K : ℕ) (eos : ℤ)
    (dec : ℕ → List (List ℤ) → List (List (List ℚ))) (nrows : ℕ) :
    ℕ → ℕ → List (List ℤ) × List (WithBot ℚ) →
      Except TErr (List (List ℤ) × List (WithBot ℚ))
  | 0, _, st => .ok st
  | n + 1, i, st =>
    match searchStep M K eos dec i st with
    | .error e => .error e
    | .ok st2 =>
      if finCheck eos nrows i st2.1 then .ok st2
      else searchFuel M K eos dec nrows n (i + 1) st2

/-- The same iterations with the early-termination check removed — the
reference against which the loop's stopping behaviour is characterized. -/
def runFuel (M : LogModel) (K : ℕ) (eos : ℤ)
    (dec : ℕ → List (List ℤ) → List (List (List ℚ))) :
    ℕ → ℕ → List (List ℤ) × List (WithBot ℚ) →
      Except TErr (List (List ℤ) × List (WithBot ℚ))
  | 0, _, st => .ok st
  | n + 1, i, st =>
    match searchStep M K eos dec i st with
    | .error e => .error e
    | .ok st2 => runFuel M K eos dec n (i + 1) st2

/-- The whole search loop of `beam_search`: timesteps `2 .. maxLen - 1`. -/
def searchLoop (M : LogModel) (K : ℕ) (eos : ℤ)
    (dec : ℕ → List (List ℤ) → List (List (List ℚ))) (nrows maxLen : ℕ)
    (st : List (List ℤ) × List (WithBot ℚ)) :
    Except TErr (List (List ℤ) × List (WithBot ℚ)) :=
  searchFuel M K eos dec nrows (maxLen - 2) 2 st

/-- `probs, ix = out[:, -1].data.topk(self.beam_size)` of `init_vars`
(source line 59), per batch item. -/
def initPix (K : ℕ) (out0 : List (List (List ℚ))) : List (List (ℕ × ℚ)) :=
  (lastDists out0).map (fun d => topkPairs d K)

/-- `log_scores = torch.Tensor([math.log(p) for p in probs.data.view(-1)])`
(source line 61): the `[B, K]` matrix of top probabilities flattened
row-major, logs taken entrywise. -/
def initLogScores (M : LogModel) (K : ℕ) (out0 : List (List (List ℚ))) :
    List (WithBot ℚ) :=
  ((initPix K out0).map (fun ps => ps.map (fun p => M.lg p.2))).flatten

/-- `outputs = torch.zeros(row_b, max_len); outputs[:, 0] = init_tok;
outputs[:, 1] = ix.view(-1)` (source lines 63-66): row `r` starts with
`<sos>`, then the `r%K`-th best token of batch item `r/K`, then zeros. -/
def initOutputs (K : ℕ) (initTok : ℤ) (maxLen : ℕ)
    (out0 : List (List (List ℚ))) : List (List ℤ) :=
  (List.range (K * out0.length)).map (fun r =>
    initTok :: ((((initPix K out0).getD (r / K) []).getD (r % K) (0, 0)).1 : ℤ)
      :: List.replicate (maxLen - 2) 0)

/-- `init_vars` (source lines 33-72), starting from the softmaxed decoder
output `out0` for the length-1 `<sos>` prefixes (the encoder and the
replicated `EncoderContext` are abstracted away — they do not affect the
beam state).  Errors: `topk` with `K` beyond the vocabulary (line 59), and
the index error from writing column 1 when `max_len < 2` (line 66). -/
def init_vars (M : LogModel) (K : ℕ) (initTok : ℤ) (maxLen : ℕ)
    (out0 : List (List (List ℚ))) :
    Except TErr (List (List ℤ) × List (WithBot ℚ)) :=
  if ¬ (∀ d ∈ lastDists out0, K ≤ d.length) then .error .topkOutOfRange
  else if maxLen < 2 then .error .indexError
  else .ok (initOutputs K initTok maxLen out0, initLogScores M K out0)

/-- Python truthiness of the 1-D numpy index array `np.nonzero(...)` inside
`_length` (source line 311): an empty array is falsy, a one-element array has
the truth value of its element, and `bool()` of a longer array raises
`ValueError` ("truth value of an array with more than one element is
ambiguous"), modelled as `none`. -/
def pyBool (idxs : List ℕ) : Option Bool :=
  match idxs with
  | [] => some false
  | [x] => some (decide (x ≠ 0))
  | _ => none

/-- `_length` (source lines 306-311): `eos, = np.nonzero(tokens == eos_tok)`
then `return len(tokens) if not eos else eos[0]`.  The nonzero positions are
the ascending indices whose token equals `eos_tok`. -/
def _length (tokens : List ℤ) (eos_tok : ℤ) : Option ℕ :=
  let eos := (tokens.enum.filter (fun p => decide (p.2 = eos_tok))).map Prod.fst
  (pyBool eos).map (fun b => if b then eos.getD 0 0 else tokens.length)

/-- `trim_and_itos` (source line 208): `[itos[i] for i in
sent[1:_length(sent)]]`. -/
def trimAndItos (itos : ℤ → String) (eosTok : ℤ) (sent : List ℤ) :
    Option (List String) :=
  (_length sent eosTok).map (fun n => ((sent.take n).drop 1).map itos)

/-- `np.argsort` along the last axis (ascending; ties by smaller index —
numpy's default introsort is not stable, but no tie is exercised below). -/
def argsortAsc {α : Type} [LinearOrder α] (l : List α) : List ℕ :=
  (l.enum.insertionSort (fun x y => x.2 < y.2 ∨ (x.2 = y.2 ∧ x.1 ≤ y.1))).map Prod.fst

/-- `length_normalize` (source lines 291-304), generic in the score entry
type `α` (`ℚ` for the pure-numpy contract of the function itself, and
`WithBot ℚ` where `beam_search` feeds it its `-inf`-capable log-scores).
`dv` is entrywise division `penalized = log_probs / lengths`, `d` the
out-of-range default of fancy indexing, and `pw` abstracts the real power
`x ↦ x ** coff` applied to `(length + 5) / 6` (Wu et al. 2016).  Note
`[::-1]` on a 2-D array reverses the FIRST axis (the batch axis), which is
what `.reverse` on the list of rows models. -/
def length_normalize {α : Type} [LinearOrder α] (dv : α → ℚ → α) (d : α)
    (pw : ℚ → ℚ) (lengths : List (List ℚ)) (log_probs : List (List α)) :
    List (List α) × List (List ℕ) :=
  let lengths2 := lengths.map (fun row => row.map (fun x => pw ((x + 5) / 6)))
  let penalized := (log_probs.zip lengths2).map
    (fun pr => (pr.1.zip pr.2).map (fun ab => dv ab.1 ab.2))
  let indices := (penalized.map argsortAsc).reverse
  let reorganized := (penalized.zip indices).map
    (fun pr => pr.2.map (fun j => pr.1.getD j d))
  (reorganized, indices)

/-- First index of the maximum of a row (`np.argmax(..., dim=-1)`; first
occurrence on ties). -/
def argmaxIdx (l : List ℚ) : ℕ :=
  ((l.enum.argmax Prod.snd).map Prod.fst).getD 0

/-- Attention tensors as returned by the decoder: a list of layers, each
layer a list of tensors `(self_attention, cross_attention)`, each tensor
`[rows, heads, tgt_len, src_len]`. -/
abbrev Attn := List (List (List (List (List (List ℚ)))))

/-- `used_attention = attn[layer_used][-1][:, head_used]` (source line 135):
the selected layer's last tensor (the cross-attention), head-sliced, giving
`[rows, tgt_len, src_len]`. -/
def usedAttn (attn : Attn) (selector : ℕ × ℕ) : List (List (List ℚ)) :=
  ((attn.getD selector.1 []).getLastD []).map (fun row => row.getD selector.2 [])

/-- `np.array(rows).reshape((B, K))` (source lines 154-157) for `rows` a
Python list of lists of strings and `(B, K)` the shape of the `[batch,
beam]` object array.  `np.array`'s dtype inference: if every row has the
same length `L`, the result is a 2-D `(n, L)` string array (so `reshape`
raises `ValueError` whenever `n * L ≠ B * K` — in particular always when the
rows are uniform of length `L ≥ 2` and `n = B * K`); only ragged rows give
the 1-D `(n,)` object array of lists for which the reshape to `(B, K)`
succeeds.  When a uniform-length reshape does succeed its cells are bare
strings; the model keeps them as singleton lists (same information, the
`List`-typed result cannot hold a bare token). -/
def npArrayReshape (B K : ℕ) (rows : List (List String)) :
    Except TErr (List (List (List String))) :=
  if rows = [] then
    if B * K = 0 then .ok [] else .error .valueError
  else if rows.all (fun r => r.length == (rows.getD 0 []).length) then
    if rows.length * (rows.getD 0 []).length = B * K then
      .ok (groupsOf K (rows.flatten.map (fun s => [s])))
    else .error .valueError
  else
    if rows.length = B * K then .ok (groupsOf K rows) else .error .valueError

/-- `replace_unknown` (source lines 121-157).  `outputs` is the `[batch,
beam]` object array of token lists (numpy object arrays are rectangular, so
its shape is `(outputs.length, (outputs.getD 0 []).length)`);
`reshape((-1,))` is `flatten`.  `operator.itemgetter(*src_idx)` is modelled
as list indexing (for a length-1 `src_idx` Python would instead return a
bare token — no theorem below exercises `tgt_len < 2`).  Out-of-range source
indices are modelled with `getD ""` (Python would raise `IndexError`; the
theorems assume attention width equals the sentence length).  The final
`np.array(replaced).reshape(outputs.shape)` is `npArrayReshape`: it raises
`ValueError` whenever the replaced rows all share one length `L` with
`(B*K) * L ≠ B * K` — every call whose replaced rows are uniform of length
`≥ 2`, e.g. any single-beam call or a truncation of all rows to one target
length — and only ragged replaced rows return the `[batch, beam]` chunking.
`replacedRows` is the function's body up to its `replaced` local (lines
135-153). -/
def replacedRows (outputs : List (List (List String)))
    (sentences : List (List String)) (attn : Attn) (selector : ℕ × ℕ)
    (unknown_token : String) : List (List String) :=
  let used_attention := usedAttn attn selector
  let flattened_outputs := outputs.flatten
  let select_id_src : List (List ℕ) :=
    used_attention.map (fun tr => tr.map argmaxIdx)
  let beam_size := select_id_src.length / sentences.length
  let replace_tokens : List (List String) := select_id_src.enum.map
    (fun bi => bi.2.map (fun j => (sentences.getD (bi.1 / beam_size) []).getD j ""))
  let zipped := flattened_outputs.zip replace_tokens
  zipped.map
    (fun ro => (ro.2.zip ro.1).map (fun rt => if rt.2 = unknown_token then rt.1 else rt.2))

/-- The body of `replace_unknown`: the `replaced` list, then the final
`np.array(replaced).reshape(outputs.shape)`. -/
def replace_unknown (outputs : List (List (List String)))
    (sentences : List (List String)) (attn : Attn) (selector : ℕ × ℕ)
    (unknown_token : String) : Except TErr (List (List (List String))) :=
  npArrayReshape outputs.length (outputs.getD 0 []).length
    (replacedRows outputs sentences attn selector unknown_token)

/-- The two return shapes of `beam_search` (source line 233):
`translated_sentences[:, 0]` when `n_best == 1`, else
`translated_sentences[:, :n_best]`. -/
inductive BSOut where
  | single (x : List (List String))
  | multi (x : List (List (List String)))
deriving DecidableEq, Repr

/-- Entrywise division of a `WithBot ℚ` score by a penalty factor
(float semantics: `-inf / positive = -inf`). -/
def divW (a : WithBot ℚ) (b : ℚ) : WithBot ℚ :=
  a.map (fun x => x / b)

/-- `beam_search` (source lines 159-233).  The model is abstracted by the
softmaxed init distribution `out0` (one row per batch item) and the loop
decoder `dec`; `attn` stands for the attention weights of the final decoder
call; `itos` is `TRG.vocab.itos`.  Post-loop: reshape to `[B, K]`, trim each
row with `_length` (whose numpy `ValueError` surfaces as `ambiguousTruth`),
optionally replace unknown tokens (skipped with a logged warning when
`src_tokens` is missing), optionally length-normalize and reorder, then
select `[:, 0]` or `[:, :n_best]`. -/
def beam_search (M : LogModel) (K maxLen : ℕ) (initTok eosTok : ℤ)
    (itos : ℤ → String) (out0 : List (List (List ℚ)))
    (dec : ℕ → List (List ℤ) → List (List (List ℚ))) (attn : Attn)
    (src_tokens : Option (List (List String))) (n_best : ℕ)
    (length_norm : Option (ℚ → ℚ)) (replace_unk : Option (ℕ × ℕ)) :
    Except TErr BSOut := do
  let (outputs0, logScores0) ← init_vars M K initTok maxLen out0
  let nrows := K * out0.length
  let (outputsF, logScoresF) ← searchLoop M K eosTok dec nrows maxLen
    (outputs0, logScores0)
  let outG := groupsOf K outputsF
  let scoreG := groupsOf K logScoresF
  let translated0 ← match outG.mapM (fun beams => beams.mapM (trimAndItos itos eosTok)) with
    | none => Except.error .ambiguousTruth
    | some t => pure t
  let translated1 ← match replace_unk, src_tokens with
    | some sel, some st => replace_unknown translated0 st attn sel "<unk>"
    | some _, none => pure translated0
    | none, _ => pure translated0
  let translated2 ← match length_norm with
    | some pw =>
      match outG.mapM (fun beams => beams.mapM (fun snt => _length snt eosTok)) with
      | none => Except.error TErr.ambiguousTruth
      | some lens =>
        let lensQ := lens.map (fun row => row.map (fun n => (n : ℚ)))
        let pr := length_normalize divW ⊥ pw lensQ scoreG
        pure ((translated1.zip pr.2).map (fun bi => bi.2.map (fun j => bi.1.getD j [])))
    | none => pure translated1
  if n_best == 1 then pure (BSOut.single (translated2.map (fun beams => beams.getD 0 [])))
  else pure (BSOut.multi (translated2.map (fun beams => beams.take n_best)))

/-- Concrete `itos` for the end-to-end runs: `3 ↦ "a"`, `4 ↦ "b"`. -/
def itosEx : ℤ → String := fun z => if z = 3 then "a" else if z = 4 then "b" else "x"

/-- Softmaxed init distribution for a `B = 1`, vocabulary-5 run:
top-2 tokens `3` then `4`. -/
def outEx0 : List (List (List ℚ)) := [[[1/20, 1/20, 1/20, 3/5, 1/4]]]

/-- Loop decoder for the end-to-end runs: the beam whose column-1 token is
`3` prefers `3` then `4`; the other prefers `4` then `3`.  No mass on
`<eos> = 2`, so the loop never stops early. -/
def decEx : ℕ → List (List ℤ) → List (List (List ℚ)) :=
  fun _ rows => rows.map (fun r =>
    [if r.getD 1 0 = 3 then [1/20, 1/10, 3/20, 1/2, 1/5]
     else [1/50, 2/25, 1/10, 3/10, 1/2]])

/-- A concrete `replace_unknown` input: one batch item, one beam, the
decoded row `["a", "<unk>"]`, source sentence `["x", "y"]`, and a single
cross-attention tensor whose second target position attends most to the
second source token. -/
def c8Out : List (List (List String)) := [[["a", "<unk>"]]]

/-- Source sentences for the concrete `replace_unknown` input. -/
def c8Sent : List (List String) := [["x", "y"]]

/-- Attention stack `[layers][tensors][rows][heads][tgt][src]` for the
concrete `replace_unknown` input: one layer whose last tensor has one row,
one head, target length 2 and source length 2. -/
def c8Attn : Attn := [[[[[[3/10, 7/10], [6/10, 4/10]]]]]]

/-- A ragged `replace_unknown` input: one batch item, two beams of different
decoded lengths (`["a", "<unk>"]` and `["b"]`), so the replaced rows have
lengths 2 and 1 and the final `np.array` builds the 1-D object array whose
reshape succeeds. -/
def c8OutR : List (List (List String)) := [[["a", "<unk>"], ["b"]]]

/-- Attention stack for the ragged `replace_unknown` input: one layer whose
last tensor has two rows (one per beam), one head, target length 2, source
length 2. -/
def c8AttnR : Attn :=
  [[[[[[3/10, 7/10], [6/10, 4/10]]],
     [[[5/10, 5/10], [2/10, 8/10]]]]]]

/-!
Batteries marks the `Rat` arithmetic operations `@[irreducible]`, which blocks
elaboration-time evaluation (`decide`/`rfl`) of the concrete runs below; the
kernel itself checks them fine.  Restore default reducibility for them.
-/
set_option allowUnsafeReducibility true
attribute [semireducible] Rat.mul Rat.add Rat.sub Rat.inv Rat.ofScientific

theorem keyLe_snd_ge {α : Type} [LinearOrder α] {x y : ℕ × α} (h : keyLe x y) :
    x.2 ≥ y.2 := by
  rcases h with h | ⟨h, -⟩
  · exact le_of_lt h
  · exact le_of_eq h.symm

theorem topkPairs_map_snd {α : Type} [LinearOrder α] (l : List α) (k : ℕ) :
    (topkPairs l k).map Prod.snd = (l.insertionSort (· ≥ ·)).take k := by
  have hmain : (l.enum.insertionSort keyLe).map Prod.snd = l.insertionSort (· ≥ ·) := by
    apply @List.eq_of_perm_of_sorted _ (fun a b : α => a ≥ b) _ _ _
    · refine ((List.perm_insertionSort keyLe l.enum).map Prod.snd).trans ?_
      rw [List.enum_map_snd]
      exact (List.perm_insertionSort _ l).symm
    · exact List.Pairwise.map Prod.snd (fun a b h => keyLe_snd_ge h)
        (List.sorted_insertionSort keyLe l.enum)
    · exact List.sorted_insertionSort _ l
  rw [topkPairs, List.map_take, hmain]

theorem topkPairs_getElem? {α : Type} [LinearOrder α] {l : List α} {k j : ℕ}
    {p : ℕ × α} (h : (topkPairs l k)[j]? = some p) : l[p.1]? = some p.2 := by
  have hp : p ∈ topkPairs l k := List.getElem?_mem h
  have hp2 : p ∈ l.enum.insertionSort keyLe := List.mem_of_mem_take hp
  have hp3 : p ∈ l.enum := (List.mem_insertionSort keyLe).1 hp2
  exact List.mem_enum_iff_getElem?.1 hp3

theorem topkPairs_length {α : Type} [LinearOrder α] (l : List α) (k : ℕ) :
    (topkPairs l k).length = min k l.length := by
  rw [topkPairs, List.length_take, (List.perm_insertionSort keyLe l.enum).length_eq,
    List.enum_length]

theorem topkPairs_sorted_snd {α : Type} [LinearOrder α] (l : List α) (k : ℕ) :
    ((topkPairs l k).map Prod.snd).Sorted (· ≥ ·) := by
  rw [topkPairs_map_snd]
  exact (List.sorted_insertionSort _ l).take

/-- In a descending sort of a list with at least `k` non-`⊥` entries, none of
the first `k` entries is `⊥` (models: `-inf` candidates are never selected by
`topk` when enough finite candidates exist). -/
theorem sortDesc_getElem?_ne_bot {l : List (WithBot ℚ)} {k j : ℕ}
    (hk : k ≤ l.countP (fun x => decide (x ≠ ⊥))) (hj : j < k) {x : WithBot ℚ}
    (hx : (l.insertionSort (· ≥ ·))[j]? = some x) : x ≠ ⊥ := by
  intro hbot
  subst hbot
  set S := l.insertionSort (· ≥ ·) with hS
  have hcount : k ≤ S.countP (fun x => decide (x ≠ ⊥)) := by
    rw [hS, (List.perm_insertionSort _ l).countP_eq]
    exact hk
  have hjlen : j < S.length := by
    by_contra hge
    rw [List.getElem?_eq_none (Nat.le_of_not_lt hge)] at hx
    exact Option.noConfusion hx
  have hdrop : S.drop j = (⊥ : WithBot ℚ) :: S.drop (j + 1) := by
    have := List.drop_eq_getElem_cons hjlen
    rw [List.getElem?_eq_getElem hjlen] at hx
    rw [this, Option.some_inj.1 hx]
  have hsorted : S.Sorted (· ≥ ·) := List.sorted_insertionSort _ l
  have hrest : ∀ y ∈ S.drop (j + 1), y = (⊥ : WithBot ℚ) := by
    intro y hy
    have hsd : (S.drop j).Sorted (· ≥ ·) := hsorted.drop
    rw [hdrop] at hsd
    exact le_bot_iff.1 (List.rel_of_sorted_cons hsd y hy)
  have hdropcount : (S.drop j).countP (fun x => decide (x ≠ ⊥)) = 0 := by
    rw [hdrop, List.countP_cons_of_neg, List.countP_eq_zero.2]
    · intro a ha
      simp [hrest a ha]
    · simp
  have hsplit : S.countP (fun x => decide (x ≠ ⊥)) ≤ j := by
    calc S.countP (fun x => decide (x ≠ ⊥))
        = (S.take j ++ S.drop j).countP (fun x => decide (x ≠ ⊥)) := by
          rw [List.take_append_drop]
      _ = (S.take j).countP (fun x => decide (x ≠ ⊥)) +
            (S.drop j).countP (fun x => decide (x ≠ ⊥)) := List.countP_append _ _ _
      _ ≤ j + 0 := by
          exact Nat.add_le_add (le_trans (List.countP_le_length _) (by
            rw [List.length_take]; exact Nat.min_le_left _ _)) (Nat.le_of_eq hdropcount)
      _ = j := Nat.add_zero j
  omega

/-- Pair form of `sortDesc_getElem?_ne_bot` for `topkPairs`. -/
theorem topkPairs_snd_ne_bot {l : List (WithBot ℚ)} {k j : ℕ}
    (hk : k ≤ l.countP (fun x => decide (x ≠ ⊥))) (hj : j < k)
    {p : ℕ × WithBot ℚ} (hp : (topkPairs l k)[j]? = some p) : p.2 ≠ ⊥ := by
  have hmap : ((topkPairs l k).map Prod.snd)[j]? = some p.2 := by
    rw [List.getElem?_map, hp]
    rfl
  rw [topkPairs_map_snd] at hmap
  have hlt : ((l.insertionSort (· ≥ ·)))[j]? = some p.2 := by
    rw [← List.getElem?_take_of_lt hj]
    exact hmap
  exact sortDesc_getElem?_ne_bot hk hj hlt

theorem groupsOfAux_getElem? {α : Type} (m : ℕ) (hm : 0 < m) :
    ∀ (b : ℕ) (fuel : ℕ) (l : List α), l.length ≤ fuel → (b + 1) * m ≤ l.length →
      (groupsOfAux m fuel l)[b]? = some ((l.drop (b * m)).take m) := by
  intro b
  induction b with
  | zero =>
    intro fuel l hfuel hlen
    obtain ⟨a, l', rfl⟩ : ∃ a l', l = a :: l' := by
      cases l with
      | nil => simp only [List.length_nil] at hlen; omega
      | cons a l' => exact ⟨a, l', rfl⟩
    obtain ⟨f, rfl⟩ : ∃ f, fuel = f + 1 := by
      cases fuel with
      | zero => simp only [List.length_cons] at hfuel; omega
      | succ f => exact ⟨f, rfl⟩
    rw [groupsOfAux]
    simp
  | succ b ih =>
    intro fuel l hfuel hlen
    obtain ⟨a, l', rfl⟩ : ∃ a l', l = a :: l' := by
      cases l with
      | nil =>
        simp only [List.length_nil] at hlen
        have : 0 < (b + 1 + 1) * m := Nat.mul_pos (by omega) (by omega)
        omega
      | cons a l' => exact ⟨a, l', rfl⟩
    obtain ⟨f, rfl⟩ : ∃ f, fuel = f + 1 := by
      cases fuel with
      | zero => simp only [List.length_cons] at hfuel; omega
      | succ f => exact ⟨f, rfl⟩
    rw [groupsOfAux]
    have hexp : (b + 1 + 1) * m = (b + 1) * m + m := by ring
    have hrec := ih f ((a :: l').drop m) (by
      simp only [List.length_drop, List.length_cons]
      simp only [List.length_cons] at hfuel
      omega) (by
      simp only [List.length_drop, List.length_cons]
      simp only [List.length_cons] at hlen
      omega)
    simp only [List.getElem?_cons_succ, hrec, List.drop_drop]
    congr 2
    ring

theorem groupsOf_getElem? {α : Type} (m : ℕ) (b : ℕ) (l : List α)
    (hlen : (b + 1) * m ≤ l.length) (hm : 0 < m) :
    (groupsOf m l)[b]? = some ((l.drop (b * m)).take m) := by
  rw [groupsOf, if_neg (by omega)]
  exact groupsOfAux_getElem? m hm b l.length l (le_refl _) hlen

theorem flatten_drop_uniform {α : Type} {m : ℕ} :
    ∀ (j : ℕ) (L : List (List α)), (∀ x ∈ L, x.length = m) →
      L.flatten.drop (j * m) = (L.drop j).flatten := by
  intro j
  induction j with
  | zero => intro L _; simp
  | succ j ih =>
    intro L hL
    cases L with
    | nil => simp
    | cons x L' =>
      have hx : x.length = m := hL x (List.mem_cons_self x L')
      have : (j + 1) * m = x.length + j * m := by rw [hx]; ring
      rw [List.flatten_cons, this, List.drop_append, ih L' (fun y hy => hL y (List.mem_cons_of_mem x hy))]
      simp

theorem flatten_take_uniform {α : Type} {m : ℕ} :
    ∀ (j : ℕ) (L : List (List α)), (∀ x ∈ L, x.length = m) →
      L.flatten.take (j * m) = (L.take j).flatten := by
  intro j
  induction j with
  | zero => intro L _; simp
  | succ j ih =>
    intro L hL
    cases L with
    | nil => simp
    | cons x L' =>
      have hx : x.length = m := hL x (List.mem_cons_self x L')
      have : (j + 1) * m = x.length + j * m := by rw [hx]; ring
      rw [List.flatten_cons, this, List.take_append, ih L' (fun y hy => hL y (List.mem_cons_of_mem x hy))]
      simp

theorem flatten_getElem?_uniform {α : Type} {m : ℕ} (hm : 0 < m) :
    ∀ (a : ℕ) (L : List (List α)), (∀ x ∈ L, x.length = m) → ∀ c : ℕ, c < m →
      L.flatten[a * m + c]? = L[a]?.bind (fun row => row[c]?) := by
  intro a
  induction a with
  | zero =>
    intro L hL c hc
    cases L with
    | nil => simp
    | cons x L' =>
      have hx : x.length = m := hL x (List.mem_cons_self x L')
      rw [List.flatten_cons]
      simp only [Nat.zero_mul, Nat.zero_add]
      rw [List.getElem?_append_left (by omega)]
      simp
  | succ a ih =>
    intro L hL c hc
    cases L with
    | nil => simp
    | cons x L' =>
      have hx : x.length = m := hL x (List.mem_cons_self x L')
      rw [List.flatten_cons]
      have harith : (a + 1) * m + c = x.length + (a * m + c) := by rw [hx]; ring
      rw [harith, List.getElem?_append_right (by omega)]
      have : x.length + (a * m + c) - x.length = a * m + c := by omega
      rw [this, ih L' (fun y hy => hL y (List.mem_cons_of_mem x hy)) c hc]
      simp

theorem flatten_length_uniform {α : Type} {m : ℕ} {L : List (List α)}
    (hL : ∀ x ∈ L, x.length = m) : L.flatten.length = L.length * m := by
  induction L with
  | nil => simp
  | cons x L' ih =>
    rw [List.flatten_cons, List.length_append, hL x (List.mem_cons_self x L'),
      ih (fun y hy => hL y (List.mem_cons_of_mem x hy))]
    simp [List.length_cons]
    ring

theorem range_drop_take (B K b : ℕ) (hb : b < B) :
    ((List.range (B * K)).drop (b * K)).take K = (List.range K).map (fun j => b * K + j) := by
  apply List.ext_getElem?
  intro n
  by_cases hn : n < K
  · rw [List.getElem?_take_of_lt hn, List.getElem?_drop, List.getElem?_range (by
      calc b * K + n < b * K + K := by omega
        _ = (b + 1) * K := by ring
        _ ≤ B * K := Nat.mul_le_mul_right K (by omega)),
      List.getElem?_map, List.getElem?_range hn]
    rfl
  · rw [List.getElem?_eq_none (by simp only [List.length_take]; omega),
      List.getElem?_eq_none (by simp only [List.length_map, List.length_range]; omega)]

theorem stepPix_getElem? {s : StepIn} {r : ℕ} (hr : r < s.out.length) :
    (stepPix s)[r]? = some (topkPairs ((lastDists s.out).getD r []) s.K) := by
  have hlen : r < (lastDists s.out).length := by
    simpa [lastDists] using hr
  rw [stepPix, List.getElem?_map, List.getElem?_eq_getElem hlen,
    List.getD_eq_getElem?_getD, List.getElem?_eq_getElem hlen]
  rfl

theorem maskedProbs_length {s : StepIn} {B : ℕ} (h : StepWF s B) {r : ℕ}
    (hr : r < B * s.K) : (maskedProbs s r).length = s.K := by
  obtain ⟨hK, -, hout, -, hvocab⟩ := h
  rw [maskedProbs]
  by_cases hfin : rowFinished s r
  · simp [hfin, List.length_replicate]
    omega
  · simp only [hfin, if_false, Bool.false_eq_true]
    have hr' : r < s.out.length := by omega
    have := @stepPix_getElem? s r hr'
    have hget : (stepPix s).getD r [] = topkPairs ((lastDists s.out).getD r []) s.K := by
      rw [List.getD_eq_getElem?_getD, this]
      rfl
    rw [hget, List.length_map, topkPairs_length]
    have hmem : (lastDists s.out).getD r [] ∈ lastDists s.out := by
      rw [List.getD_eq_getElem?_getD]
      have hlen : r < (lastDists s.out).length := by simpa [lastDists] using hr'
      rw [List.getElem?_eq_getElem hlen]
      exact List.getElem_mem hlen
    have := hvocab _ hmem
    omega

theorem maskedToks_length {s : StepIn} {B : ℕ} (h : StepWF s B) {r : ℕ}
    (hr : r < B * s.K) : (maskedToks s r).length = s.K := by
  obtain ⟨hK, -, hout, -, hvocab⟩ := h
  rw [maskedToks]
  by_cases hfin : rowFinished s r
  · simp [hfin, List.length_replicate]
    omega
  · simp only [hfin, if_false, Bool.false_eq_true]
    have hr' : r < s.out.length := by omega
    have hget : (stepPix s).getD r [] = topkPairs ((lastDists s.out).getD r []) s.K := by
      rw [List.getD_eq_getElem?_getD, stepPix_getElem? hr']
      rfl
    rw [hget, List.length_map, topkPairs_length]
    have hmem : (lastDists s.out).getD r [] ∈ lastDists s.out := by
      rw [List.getD_eq_getElem?_getD]
      have hlen : r < (lastDists s.out).length := by simpa [lastDists] using hr'
      rw [List.getElem?_eq_getElem hlen]
      exact List.getElem_mem hlen
    have := hvocab _ hmem
    omega

theorem candRow_length {s : StepIn} {B : ℕ} (h : StepWF s B) {r : ℕ}
    (hr : r < B * s.K) : (candRow s r).length = s.K := by
  rw [candRow, List.length_map]
  exact maskedProbs_length h hr

theorem stepLogProbs_uniform {s : StepIn} {B : ℕ} (h : StepWF s B) :
    ∀ row ∈ stepLogProbs s, row.length = s.K := by
  intro row hrow
  rw [stepLogProbs] at hrow
  obtain ⟨r, hr, rfl⟩ := List.mem_map.1 hrow
  rw [List.mem_range] at hr
  have hout := h.2.2.1
  exact candRow_length h (by omega)

theorem stepLogProbs_length (s : StepIn) : (stepLogProbs s).length = s.out.length := by
  rw [stepLogProbs, List.length_map, List.length_range]

/-- The `b`-th chunk of the flattened `log_probs.view(batch_size, -1)` is
exactly the candidate list of batch item `b`: the `view` never mixes batch
items. -/
theorem stepGroup_eq_candList {s : StepIn} {B : ℕ} (h : StepWF s B) {b : ℕ}
    (hb : b < B) :
    (groupsOf (s.K * s.K) (stepLogProbs s).flatten).getD b [] = candList s b := by
  have hK := h.1
  have hout := h.2.2.1
  have huni : ∀ row ∈ stepLogProbs s, row.length = s.K := stepLogProbs_uniform h
  have hflat : (stepLogProbs s).flatten.length = (B * s.K) * s.K := by
    rw [flatten_length_uniform huni, stepLogProbs_length, hout]
  have hKK : 0 < s.K * s.K := Nat.mul_pos (by omega) (by omega)
  have hle : (b + 1) * (s.K * s.K) ≤ (stepLogProbs s).flatten.length := by
    rw [hflat]
    calc (b + 1) * (s.K * s.K) ≤ B * (s.K * s.K) := Nat.mul_le_mul_right _ (by omega)
      _ = (B * s.K) * s.K := by ring
  have hget := groupsOf_getElem? (s.K * s.K) b (stepLogProbs s).flatten hle hKK
  rw [List.getD_eq_getElem?_getD, hget]
  have hdrop : (stepLogProbs s).flatten.drop (b * (s.K * s.K))
      = ((stepLogProbs s).drop (b * s.K)).flatten := by
    have : b * (s.K * s.K) = (b * s.K) * s.K := by ring
    rw [this, flatten_drop_uniform (b * s.K) _ huni]
  have htake : (((stepLogProbs s).drop (b * s.K)).flatten).take (s.K * s.K)
      = (((stepLogProbs s).drop (b * s.K)).take s.K).flatten := by
    exact flatten_take_uniform s.K _ (fun x hx => huni x (List.mem_of_mem_drop hx))
  have hrows : ((stepLogProbs s).drop (b * s.K)).take s.K
      = (List.range s.K).map (fun j => candRow s (b * s.K + j)) := by
    rw [stepLogProbs, ← List.map_drop, ← List.map_take, hout,
      range_drop_take B s.K b hb, List.map_map]
    rfl
  simp only [Option.getD_some, hdrop, htake, hrows, candList]

theorem candList_length {s : StepIn} {B : ℕ} (h : StepWF s B) {b : ℕ}
    (hb : b < B) : (candList s b).length = s.K * s.K := by
  have huni : ∀ x ∈ (List.range s.K).map (fun j => candRow s (b * s.K + j)),
      x.length = s.K := by
    intro x hx
    obtain ⟨j, hj, rfl⟩ := List.mem_map.1 hx
    rw [List.mem_range] at hj
    refine candRow_length h ?_
    calc b * s.K + j < b * s.K + s.K := by omega
      _ = (b + 1) * s.K := by ring
      _ ≤ B * s.K := Nat.mul_le_mul_right _ (by omega)
  rw [candList, flatten_length_uniform huni, List.length_map, List.length_range]

theorem stepSel_length {s : StepIn} {B : ℕ} (h : StepWF s B) {b : ℕ}
    (hb : b < B) : (stepSel s b).length = s.K := by
  rw [stepSel, topkPairs_length, stepGroup_eq_candList h hb, candList_length h hb]
  have hK := h.1
  have : s.K ≤ s.K * s.K := Nat.le_mul_of_pos_left _ (by omega)
  omega

/-- Candidate `q` of batch item `b` scores
`log(maskedProbs[parent][slot]) + prior[parent]` with `parent = b*K + q/K`,
`slot = q%K`: the flat candidate index decodes to parent row and top-k slot
exactly as lines 112-113 compute. -/
theorem candList_getElem? {s : StepIn} {B : ℕ} (h : StepWF s B) {b : ℕ}
    (hb : b < B) {q : ℕ} (hq : q < s.K * s.K) :
    (candList s b)[q]? = some (s.M.lg ((maskedProbs s (b * s.K + q / s.K)).getD (q % s.K) 0)
      + s.logScores.getD (b * s.K + q / s.K) ⊥) := by
  have hK := h.1
  have huni : ∀ x ∈ (List.range s.K).map (fun j => candRow s (b * s.K + j)),
      x.length = s.K := by
    intro x hx
    obtain ⟨j, hj, rfl⟩ := List.mem_map.1 hx
    rw [List.mem_range] at hj
    refine candRow_length h ?_
    calc b * s.K + j < b * s.K + s.K := by omega
      _ = (b + 1) * s.K := by ring
      _ ≤ B * s.K := Nat.mul_le_mul_right _ (by omega)
  have hqd : q / s.K < s.K := Nat.div_lt_of_lt_mul (by omega)
  have hqm : q % s.K < s.K := Nat.mod_lt _ (by omega)
  have hsplit : q = (q / s.K) * s.K + q % s.K := by
    rw [Nat.mul_comm (q / s.K) s.K, Nat.div_add_mod]
  have hparent : b * s.K + q / s.K < B * s.K := by
    calc b * s.K + q / s.K < b * s.K + s.K := by omega
      _ = (b + 1) * s.K := by ring
      _ ≤ B * s.K := Nat.mul_le_mul_right _ (by omega)
  have hmp : (maskedProbs s (b * s.K + q / s.K))[q % s.K]? =
      some ((maskedProbs s (b * s.K + q / s.K)).getD (q % s.K) 0) := by
    rw [List.getD_eq_getElem?_getD]
    have : q % s.K < (maskedProbs s (b * s.K + q / s.K)).length := by
      rw [maskedProbs_length h hparent]; omega
    rw [List.getElem?_eq_getElem this]
    rfl
  rw [candList]
  conv in _[q]? => rw [hsplit]
  rw [flatten_getElem?_uniform (by omega) (q / s.K) _ huni (q % s.K) hqm,
    List.getElem?_map, List.getElem?_range hqd]
  rw [Option.map_some', Option.some_bind, candRow, List.getElem?_map, hmp]
  rfl

theorem computeKBest_ok {s : StepIn} {B : ℕ} (h : StepWF s B) :
    computeKBest s.M s.K s.eos s.outputs s.out s.logScores s.i
      = .ok (stepNewOutputs s, stepNewScores s) := by
  obtain ⟨hK, houtp, hout, hls, hvocab⟩ := h
  rw [computeKBest]
  rw [if_neg (by push_neg; simpa using hvocab), if_neg (by simp [houtp, hout]),
    if_neg (by simp [hls, hout]),
    if_neg (by rw [hout, Nat.mul_div_cancel _ (by omega : 0 < s.K)]; simp)]

theorem stepNewScores_rows_uniform {s : StepIn} {B : ℕ} (h : StepWF s B) :
    ∀ row ∈ (List.range (s.out.length / s.K)).map (fun b => (stepSel s b).map Prod.snd),
      row.length = s.K := by
  intro row hrow
  obtain ⟨b, hb, rfl⟩ := List.mem_map.1 hrow
  rw [List.mem_range, h.2.2.1, Nat.mul_div_cancel _ (by have := h.1; omega : 0 < s.K)] at hb
  rw [List.length_map, stepSel_length h hb]

/-- Entry `b*K + j` of the new `log_scores`: the `j`-th selected pair of
batch item `b`. -/
theorem stepNewScores_getElem? {s : StepIn} {B : ℕ} (h : StepWF s B) {b j : ℕ}
    (hb : b < B) (hj : j < s.K) :
    ∃ p : ℕ × WithBot ℚ, (stepSel s b)[j]? = some p ∧
      (stepNewScores s)[b * s.K + j]? = some p.2 := by
  have hK := h.1
  have hout := h.2.2.1
  have hBdiv : s.out.length / s.K = B := by
    rw [hout, Nat.mul_div_cancel _ (by omega : 0 < s.K)]
  have hsel : j < (stepSel s b).length := by rw [stepSel_length h hb]; omega
  refine ⟨(stepSel s b)[j], List.getElem?_eq_getElem hsel, ?_⟩
  have huni := stepNewScores_rows_uniform h
  rw [stepNewScores, flatten_getElem?_uniform (by omega) b _ huni j hj,
    List.getElem?_map, List.getElem?_range (by rw [hBdiv]; exact hb)]
  rw [Option.map_some', Option.some_bind, List.getElem?_map,
    List.getElem?_eq_getElem hsel]
  rfl

theorem stepNewScores_length {s : StepIn} {B : ℕ} (h : StepWF s B) :
    (stepNewScores s).length = B * s.K := by
  have hK := h.1
  have hout := h.2.2.1
  rw [stepNewScores, flatten_length_uniform (stepNewScores_rows_uniform h),
    List.length_map, List.length_range, hout, Nat.mul_div_cancel _ (by omega : 0 < s.K)]

/-- Rows `b*K .. b*K+K-1` of the new `log_scores` column are exactly the
selected scores of batch item `b`, in selection (descending) order. -/
theorem stepNewScores_block {s : StepIn} {B : ℕ} (h : StepWF s B) {b : ℕ}
    (hb : b < B) :
    ((stepNewScores s).drop (b * s.K)).take s.K = (stepSel s b).map Prod.snd := by
  have hK := h.1
  have hout := h.2.2.1
  have hlen : (stepNewScores s).length = B * s.K := stepNewScores_length h
  have hsellen : ((stepSel s b).map Prod.snd).length = s.K := by
    rw [List.length_map, stepSel_length h hb]
  apply List.ext_getElem?
  intro j
  by_cases hj : j < s.K
  · obtain ⟨p, hp, hscore⟩ := stepNewScores_getElem? h hb hj
    rw [List.getElem?_take_of_lt hj, List.getElem?_drop, hscore,
      List.getElem?_map, hp]
    rfl
  · rw [List.getElem?_eq_none (by
      rw [List.length_take]
      exact le_trans (Nat.min_le_left _ _) (Nat.le_of_not_lt hj)),
      List.getElem?_eq_none (by rw [hsellen]; exact Nat.le_of_not_lt hj)]

theorem stepNewOutputs_getElem? (s : StepIn) {r : ℕ} (hr : r < s.out.length) :
    (stepNewOutputs s)[r]? = some ((s.outputs.getD (stepParent s r) []).take s.i
      ++ [(maskedToks s (stepParent s r)).getD (stepCol s r) 0]
      ++ (s.outputs.getD r []).drop (s.i + 1)) := by
  rw [stepNewOutputs, List.getElem?_map, List.getElem?_range hr]
  rfl

theorem stepNewOutputs_length (s : StepIn) : (stepNewOutputs s).length = s.out.length := by
  rw [stepNewOutputs, List.length_map, List.length_range]

theorem topkPairs_mem_snd {α : Type} [LinearOrder α] {l : List α} {k : ℕ}
    {p : ℕ × α} (hp : p ∈ topkPairs l k) : p.2 ∈ l := by
  have h2 : p ∈ l.enum := (List.mem_insertionSort keyLe).1 (List.mem_of_mem_take hp)
  exact List.snd_mem_of_mem_enum h2

theorem sum_map_range_ge (n : ℕ) (g : ℕ → ℕ) (hg : ∀ j < n, 1 ≤ g j) :
    n ≤ ((List.range n).map g).sum := by
  induction n with
  | zero => simp
  | succ n ih =>
    rw [List.range_succ, List.map_append, List.sum_append]
    have h1 : n ≤ ((List.range n).map g).sum := ih (fun j hj => hg j (by omega))
    have h2 : 1 ≤ g n := hg n (by omega)
    simp only [List.map_cons, List.map_nil, List.sum_cons, List.sum_nil]
    omega

/-- Every parent row contributes at least one finite candidate (the top
probability for a live row, the probability-1 `<eos>` slot for a finished
row), so each batch item has at least `K` finite candidates among its `K*K`. -/
theorem candList_countP_ge {s : StepIn} {B : ℕ} (h : StepWF s B) {b : ℕ}
    (hb : b < B)
    (hpos : ∀ d ∈ lastDists s.out, ∀ p ∈ d, 0 < p)
    (hfin : ∀ x ∈ s.logScores, x ≠ ⊥) :
    s.K ≤ (candList s b).countP (fun x => decide (x ≠ ⊥)) := by
  have hK := h.1
  have hout := h.2.2.1
  have hls := h.2.2.2.1
  rw [candList, List.countP_flatten, List.map_map]
  refine le_trans (sum_map_range_ge s.K _ ?_) (le_of_eq rfl)
  intro j hj
  have hr : b * s.K + j < B * s.K := by
    calc b * s.K + j < b * s.K + s.K := by omega
      _ = (b + 1) * s.K := by ring
      _ ≤ B * s.K := Nat.mul_le_mul_right _ (by omega)
  set r := b * s.K + j with hrdef
  have hprior : s.logScores.getD r ⊥ ≠ ⊥ := by
    have hlen : r < s.logScores.length := by omega
    rw [List.getD_eq_getElem?_getD, List.getElem?_eq_getElem hlen]
    exact hfin _ (List.getElem_mem hlen)
  have hwitness : ∃ a ∈ maskedProbs s r, s.M.lg a + s.logScores.getD r ⊥ ≠ ⊥ := by
    by_cases hfin2 : rowFinished s r
    · refine ⟨1, ?_, ?_⟩
      · rw [maskedProbs, if_pos hfin2]
        exact List.mem_cons_self _ _
      · rw [s.M.lg_one, zero_add]
        exact hprior
    · have hr' : r < s.out.length := by omega
      have hget : (stepPix s).getD r [] = topkPairs ((lastDists s.out).getD r []) s.K := by
        rw [List.getD_eq_getElem?_getD, stepPix_getElem? hr']
        rfl
      have hlen : (maskedProbs s r).length = s.K := maskedProbs_length h hr
      have hne : maskedProbs s r ≠ [] := by
        intro hnil
        rw [hnil] at hlen
        simp at hlen
        omega
      obtain ⟨a, ha⟩ := List.exists_mem_of_ne_nil _ hne
      refine ⟨a, ha, ?_⟩
      have hmem : a ∈ ((stepPix s).getD r []).map Prod.snd := by
        rw [maskedProbs, if_neg hfin2] at ha
        exact ha
      obtain ⟨q, hq, rfl⟩ := List.mem_map.1 hmem
      rw [hget] at hq
      have hsnd : q.2 ∈ (lastDists s.out).getD r [] := topkPairs_mem_snd hq
      have hdmem : (lastDists s.out).getD r [] ∈ lastDists s.out := by
        have hlen2 : r < (lastDists s.out).length := by simpa [lastDists] using hr'
        rw [List.getD_eq_getElem?_getD, List.getElem?_eq_getElem hlen2]
        exact List.getElem_mem hlen2
      have hpq : 0 < q.2 := hpos _ hdmem _ hsnd
      intro hbot
      rcases WithBot.add_eq_bot.1 hbot with hlg | hpr
      · exact s.M.lg_pos _ hpq hlg
      · exact hprior hpr
  obtain ⟨a, ha, hane⟩ := hwitness
  have : 0 < (candRow s r).countP (fun x => decide (x ≠ ⊥)) := by
    rw [List.countP_pos_iff]
    exact ⟨_, List.mem_map_of_mem _ ha, by simpa using hane⟩
  simpa using this

theorem maskedProbs_fin_getD {s : StepIn} {r : ℕ} (hfin : rowFinished s r = true) :
    (maskedProbs s r).getD 0 0 = 1 ∧ ∀ c : ℕ, 0 < c → (maskedProbs s r).getD c 0 = 0 := by
  rw [maskedProbs, if_pos hfin]
  constructor
  · rfl
  · intro c hc
    obtain ⟨c', rfl⟩ : ∃ c', c = c' + 1 := ⟨c - 1, by omega⟩
    show (List.replicate (s.K - 1) (0 : ℚ)).getD c' 0 = 0
    rw [List.getD_eq_getElem?_getD, List.getElem?_replicate]
    by_cases hlt : c' < s.K - 1 <;> simp [hlt]

theorem maskedToks_fin_getD {s : StepIn} {r : ℕ} (hfin : rowFinished s r = true) :
    (maskedToks s r).getD 0 0 = s.eos := by
  rw [maskedToks, if_pos hfin]
  rfl

theorem getD_append_middle {α : Type} {A : List α} {t d : α} {C : List α} {i : ℕ}
    (h : A.length = i) : (A ++ [t] ++ C).getD i d = t := by
  rw [List.getD_eq_getElem?_getD, List.append_assoc,
    List.getElem?_append_right (by omega), h]
  simp

theorem nat_block_div {b j K : ℕ} (hj : j < K) : (b * K + j) / K = b := by
  have hcomm : b * K + j = K * b + j := by ring
  rw [hcomm, Nat.mul_add_div (by omega), Nat.div_eq_of_lt hj, Nat.add_zero]

theorem nat_block_mod {b j K : ℕ} (hj : j < K) : (b * K + j) % K = j := by
  have hcomm : b * K + j = K * b + j := by ring
  rw [hcomm, Nat.mul_add_mod, Nat.mod_eq_of_lt hj]

/-- Decoding a selected pair: slot `j` of batch item `b` selects some flat
candidate index `q < K*K` whose score is the combined
`log(maskedProbs[parent][q%K]) + prior[parent]`, `parent = b*K + q/K`. -/
theorem stepSel_decode {s : StepIn} {B : ℕ} (h : StepWF s B) {b j : ℕ}
    (hb : b < B) (hj : j < s.K) :
    ∃ p : ℕ × WithBot ℚ, (stepSel s b)[j]? = some p ∧ p.1 < s.K * s.K ∧
      p.2 = s.M.lg ((maskedProbs s (b * s.K + p.1 / s.K)).getD (p.1 % s.K) 0)
        + s.logScores.getD (b * s.K + p.1 / s.K) ⊥ := by
  have hsellen : j < (stepSel s b).length := by rw [stepSel_length h hb]; omega
  refine ⟨(stepSel s b)[j], List.getElem?_eq_getElem hsellen, ?_, ?_⟩
  all_goals
    have hsel : stepSel s b = topkPairs (candList s b) s.K := by
      rw [stepSel, stepGroup_eq_candList h hb]
    have hpair : (topkPairs (candList s b) s.K)[j]? = some (stepSel s b)[j] := by
      rw [← hsel]
      exact List.getElem?_eq_getElem hsellen
    have hcand := topkPairs_getElem? hpair
  · by_contra hge
    rw [List.getElem?_eq_none (by rw [candList_length h hb]; omega)] at hcand
    exact Option.noConfusion hcand
  · have hq : (stepSel s b)[j].1 < s.K * s.K := by
      by_contra hge
      rw [List.getElem?_eq_none (by rw [candList_length h hb]; omega)] at hcand
      exact Option.noConfusion hcand
    rw [candList_getElem? h hb hq] at hcand
    exact Option.some_inj.1 hcand.symm


/-- Claim C1: one `compute_k_best` step on a `B*K`-row beam state forms, for
each batch item `b`, the `K*K` candidate scores
`new_log_score = log(probability) + prior_score` from the per-row top-`K`
`(probability, id)` pairs (`candList`, built from `maskedProbs` and the
per-parent priors) and selects that batch item's global top-`K` of them (its
score block equals the first `K` of the descending sort of its own `K*K`
candidates); every surviving slot realizes one candidate of its own batch
item — parent row `b*K + q/K` lies in `[b*K, (b+1)*K)`, so batch items never
compete with each other — and, as the concrete `sEx1` run shows, a single
parent beam can supply more than one survivor (both surviving rows have
parent row 0). -/
theorem c1_step_expander_per_batch_topk :
    (∀ (s : StepIn) (B : ℕ), StepWF s B →
      computeKBest s.M s.K s.eos s.outputs s.out s.logScores s.i
        = .ok (stepNewOutputs s, stepNewScores s) ∧
      (∀ b < B, ((stepNewScores s).drop (b * s.K)).take s.K
          = ((candList s b).insertionSort (· ≥ ·)).take s.K) ∧
      (∀ b < B, ∀ j < s.K, ∃ q < s.K * s.K,
        b * s.K ≤ b * s.K + q / s.K ∧ b * s.K + q / s.K < (b + 1) * s.K ∧
        (stepNewScores s).getD (b * s.K + j) ⊥
          = s.M.lg ((maskedProbs s (b * s.K + q / s.K)).getD (q % s.K) 0)
            + s.logScores.getD (b * s.K + q / s.K) ⊥ ∧
        (stepNewOutputs s).getD (b * s.K + j) []
          = (s.outputs.getD (b * s.K + q / s.K) []).take s.i
            ++ [(maskedToks s (b * s.K + q / s.K)).getD (q % s.K) 0]
            ++ (s.outputs.getD (b * s.K + j) []).drop (s.i + 1)))
    ∧ (stepParent sEx1 0 = 0 ∧ stepParent sEx1 1 = 0 ∧
        computeKBest sEx1.M sEx1.K sEx1.eos sEx1.outputs sEx1.out sEx1.logScores sEx1.i
          = .ok ([[1, 3, 3, 0], [1, 3, 4, 0]],
              [((-1/2 : ℚ) : WithBot ℚ), ((-7/10 : ℚ) : WithBot ℚ)])) := by
  constructor
  · intro s B hwf
    refine ⟨computeKBest_ok hwf, ?_, ?_⟩
    · intro b hb
      rw [stepNewScores_block hwf hb]
      simp only [stepSel]
      rw [stepGroup_eq_candList hwf hb, topkPairs_map_snd]
    · intro b hb j hj
      have hK := hwf.1
      obtain ⟨p, hp, hq, hv⟩ := stepSel_decode hwf hb hj
      refine ⟨p.1, hq, Nat.le_add_right _ _, ?_, ?_, ?_⟩
      · have hdiv : p.1 / s.K < s.K := Nat.div_lt_of_lt_mul hq
        calc b * s.K + p.1 / s.K < b * s.K + s.K := by omega
          _ = (b + 1) * s.K := by ring
      · obtain ⟨p2, hp2, hs2⟩ := stepNewScores_getElem? hwf hb hj
        have hpp : p2 = p := by
          rw [hp] at hp2
          exact (Option.some_inj.1 hp2).symm
        rw [List.getD_eq_getElem?_getD, hs2, Option.getD_some, hpp]
        exact hv
      · have hrlt : b * s.K + j < s.out.length := by
          rw [hwf.2.2.1]
          calc b * s.K + j < b * s.K + s.K := by omega
            _ = (b + 1) * s.K := by ring
            _ ≤ B * s.K := Nat.mul_le_mul_right _ (by omega)
        have ho := stepNewOutputs_getElem? s hrlt
        have hpar : stepParent s (b * s.K + j) = b * s.K + p.1 / s.K := by
          simp only [stepParent, nat_block_div hj, nat_block_mod hj,
            List.getD_eq_getElem?_getD, hp, Option.getD_some]
        have hcol : stepCol s (b * s.K + j) = p.1 % s.K := by
          simp only [stepCol, nat_block_div hj, nat_block_mod hj,
            List.getD_eq_getElem?_getD, hp, Option.getD_some]
        rw [List.getD_eq_getElem?_getD, ho, Option.getD_some, hpar, hcol]
  · exact ⟨by decide, by decide, by rfl⟩

/-- Witness for C1: the hypotheses of the universal part hold at the concrete
step input `sEx1` (with `B = 1`), and the step succeeds. -/
theorem c1_witness :
    computeKBest sEx1.M sEx1.K sEx1.eos sEx1.outputs sEx1.out sEx1.logScores sEx1.i
      = .ok (stepNewOutputs sEx1, stepNewScores sEx1) :=
  (c1_step_expander_per_batch_topk.1 sEx1 1 (by decide)).1

/-- Counterexample to Claim C2 as stated: in the concrete step `sEx2`, row 0
is finished (its column-1 token is `<eos> = 2`) with prior score `-10`, but
both of the live row 1's candidates score higher, so the finished hypothesis
is dropped: after `compute_k_best`, row 0 holds a copy of row 1's hypothesis —
its column-2 token is `3`, not `<eos>`, and its score is `-1/2`, not the
unchanged `-10`. -/
theorem c2_counterexample :
    rowFinished sEx2 0 = true ∧
    (computeKBest sEx2.M sEx2.K sEx2.eos sEx2.outputs sEx2.out sEx2.logScores sEx2.i).toOption.map
        (fun x => ((x.1.getD 0 []).getD 2 0, x.2.getD 0 ⊥))
      = some ((3 : ℤ), ((-1/2 : ℚ) : WithBot ℚ)) ∧
    (3 : ℤ) ≠ sEx2.eos ∧
    ((-1/2 : ℚ) : WithBot ℚ) ≠ sEx2.logScores.getD 0 ⊥ := by
  refine ⟨by decide, by rfl, by decide, by decide⟩

/-- Claim C2, amended: a row whose column-`(i-1)` token is `<eos>` is masked
to a single live candidate — `<eos>` with probability 1 in slot 0
(`log 1 = 0`, so its combined score is exactly the prior score) and `K - 1`
sentinel slots with token id `-1` and probability `0` (the float32 value of
the `1e-100` literal; `log 0 = -inf`).  Hence if the model's distributions
are positive (as softmax outputs are) and all prior scores are finite, a
finished row can never produce a non-`<eos>` continuation: every surviving
row whose selected parent is finished gets token `<eos>` at column `i` and
keeps the parent's score unchanged.  The finished hypothesis itself may
however be dropped and its row index overwritten by another parent's
candidate (`c2_counterexample`), so the original claim's per-row-index
statement fails. -/
theorem c2_amended_finished_rows :
    ∀ (s : StepIn) (B : ℕ), StepWF s B →
      (∀ d ∈ lastDists s.out, ∀ p ∈ d, 0 < p) →
      (∀ x ∈ s.logScores, x ≠ ⊥) →
      (∀ row ∈ s.outputs, s.i ≤ row.length) →
      (∀ r : ℕ, rowFinished s r = true →
        maskedProbs s r = 1 :: List.replicate (s.K - 1) 0 ∧
        maskedToks s r = s.eos :: List.replicate (s.K - 1) (-1)) ∧
      computeKBest s.M s.K s.eos s.outputs s.out s.logScores s.i
        = .ok (stepNewOutputs s, stepNewScores s) ∧
      (∀ r < B * s.K, rowFinished s (stepParent s r) = true →
        ((stepNewOutputs s).getD r []).getD s.i 0 = s.eos ∧
        (stepNewScores s).getD r ⊥ = s.logScores.getD (stepParent s r) ⊥) := by
  intro s B hwf hpos hfin hrow
  refine ⟨?_, computeKBest_ok hwf, ?_⟩
  · intro r hfin2
    exact ⟨by rw [maskedProbs, if_pos hfin2], by rw [maskedToks, if_pos hfin2]⟩
  · intro r hr hparfin
    have hK := hwf.1
    have hb : r / s.K < B := by
      apply Nat.div_lt_of_lt_mul
      rw [Nat.mul_comm]
      exact hr
    have hj : r % s.K < s.K := Nat.mod_lt _ (by omega)
    have hr_eq : (r / s.K) * s.K + r % s.K = r := by
      rw [Nat.mul_comm]
      exact Nat.div_add_mod r s.K
    obtain ⟨p, hp, hq, hv⟩ := stepSel_decode hwf hb hj
    have hpar : stepParent s r = (r / s.K) * s.K + p.1 / s.K := by
      simp only [stepParent, List.getD_eq_getElem?_getD, hp, Option.getD_some]
    have hcol : stepCol s r = p.1 % s.K := by
      simp only [stepCol, List.getD_eq_getElem?_getD, hp, Option.getD_some]
    have hvne : p.2 ≠ ⊥ := by
      have hsel : (topkPairs (candList s (r / s.K)) s.K)[r % s.K]? = some p := by
        rw [← stepGroup_eq_candList hwf hb]
        exact hp
      exact topkPairs_snd_ne_bot (candList_countP_ge hwf hb hpos hfin) hj hsel
    have hparfin' : rowFinished s ((r / s.K) * s.K + p.1 / s.K) = true := by
      rw [← hpar]
      exact hparfin
    obtain ⟨hp1, hpc⟩ := maskedProbs_fin_getD hparfin'
    have hcol0 : p.1 % s.K = 0 := by
      by_contra hc
      rw [hpc _ (Nat.pos_of_ne_zero hc), s.M.lg_zero, WithBot.bot_add] at hv
      exact hvne hv
    have hscore : p.2 = s.logScores.getD ((r / s.K) * s.K + p.1 / s.K) ⊥ := by
      rw [hv, hcol0, hp1, s.M.lg_one, zero_add]
    have hparlt : stepParent s r < s.outputs.length := by
      rw [hwf.2.1, hpar]
      have hdiv : p.1 / s.K < s.K := Nat.div_lt_of_lt_mul hq
      have hbb : r / s.K < B := hb
      calc (r / s.K) * s.K + p.1 / s.K < (r / s.K) * s.K + s.K := by omega
        _ = (r / s.K + 1) * s.K := by ring
        _ ≤ B * s.K := Nat.mul_le_mul_right _ (by omega)
    constructor
    · have hrlt : r < s.out.length := by rw [hwf.2.2.1]; exact hr
      have ho := stepNewOutputs_getElem? s hrlt
      have hrowval : (stepNewOutputs s).getD r []
          = (s.outputs.getD (stepParent s r) []).take s.i
            ++ [(maskedToks s (stepParent s r)).getD (stepCol s r) 0]
            ++ (s.outputs.getD r []).drop (s.i + 1) := by
        rw [List.getD_eq_getElem?_getD, ho]
        rfl
      have hplen : s.i ≤ (s.outputs.getD (stepParent s r) []).length := by
        apply hrow
        rw [List.getD_eq_getElem?_getD, List.getElem?_eq_getElem hparlt]
        exact List.getElem_mem hparlt
      rw [hrowval, getD_append_middle (by rw [List.length_take]; omega)]
      rw [hcol, hcol0, hpar]
      exact maskedToks_fin_getD hparfin'
    · obtain ⟨p2, hp2, hs2⟩ := stepNewScores_getElem? hwf hb hj
      have hpp : p2 = p := by
        rw [hp] at hp2
        exact (Option.some_inj.1 hp2).symm
      conv_lhs => rw [← hr_eq]
      rw [List.getD_eq_getElem?_getD, hs2, Option.getD_some, hpp, hscore, hpar]

/-- Witness for C2's amended theorem: its hypotheses hold at the concrete
step input `sEx2` (with `B = 1`), and the step succeeds. -/
theorem c2_witness :
    computeKBest sEx2.M sEx2.K sEx2.eos sEx2.outputs sEx2.out sEx2.logScores sEx2.i
      = .ok (stepNewOutputs sEx2, stepNewScores sEx2) :=
  (c2_amended_finished_rows sEx2 1 (by decide) (by decide) (by decide) (by decide)).2.1

/-- Loop characterization: the loop with `break` equals some prefix of the
break-free iteration; it is a strict prefix only when the all-rows check
succeeded right after its last executed step, and after every earlier step
the check was false. -/
theorem searchFuel_runFuel (M : LogModel) (K : ℕ) (eos : ℤ)
    (dec : ℕ → List (List ℤ) → List (List (List ℚ))) (nrows : ℕ) :
    ∀ (n i : ℕ) st, ∃ m, m ≤ n ∧
      searchFuel M K eos dec nrows n i st = runFuel M K eos dec m i st ∧
      (m < n → ∀ st2, runFuel M K eos dec m i st = .ok st2 →
        finCheck eos nrows (i + m - 1) st2.1 = true) ∧
      (∀ j st2, j + 1 < m → runFuel M K eos dec (j + 1) i st = .ok st2 →
        finCheck eos nrows (i + j) st2.1 = false) := by
  intro n
  induction n with
  | zero =>
    intro i st
    exact ⟨0, le_refl _, rfl, by omega, by omega⟩
  | succ n ih =>
    intro i st
    cases hstep : searchStep M K eos dec i st with
    | error e =>
      refine ⟨1, by omega, ?_, ?_, by omega⟩
      · simp only [searchFuel, runFuel, hstep]
      · intro _ st2 hok
        simp only [runFuel, hstep] at hok
        exact Except.noConfusion hok
    | ok st2 =>
      by_cases hfc : finCheck eos nrows i st2.1
      · refine ⟨1, by omega, ?_, ?_, by omega⟩
        · simp only [searchFuel, runFuel, hstep, hfc, if_true]
        · intro _ st3 hok
          simp only [runFuel, hstep] at hok
          have hst : st2 = st3 := Except.ok.inj hok
          have h1 : i + 1 - 1 = i := by omega
          rw [h1, ← hst]
          exact hfc
      · obtain ⟨m', hle', heq', hB', hC'⟩ := ih (i + 1) st2
        refine ⟨m' + 1, by omega, ?_, ?_, ?_⟩
        · have h1 : searchFuel M K eos dec nrows (n + 1) i st
              = searchFuel M K eos dec nrows n (i + 1) st2 := by
            simp only [searchFuel, hstep, hfc, if_false, Bool.false_eq_true]
          rw [h1, heq']
          simp only [runFuel, hstep]
        · intro hlt st3 hok
          simp only [runFuel, hstep] at hok
          have := hB' (by omega) st3 hok
          have h1 : i + 1 + m' - 1 = i + (m' + 1) - 1 := by omega
          rw [← h1]
          exact this
        · intro j st3 hj hok
          cases j with
          | zero =>
            simp only [runFuel, hstep] at hok
            have hst : st2 = st3 := Except.ok.inj hok
            rw [Nat.add_zero, ← hst]
            exact Bool.eq_false_iff.2 hfc
          | succ j' =>
            simp only [runFuel, hstep] at hok
            have := hC' j' st3 (by omega) hok
            have h1 : i + 1 + j' = i + (j' + 1) := by omega
            rw [← h1]
            exact this

/-- Claim C3: the loop of `beam_search` runs timesteps `2 .. maxLen - 1` and
exits early exactly when, after the `compute_k_best` update at timestep `t`,
EVERY row of the whole `B*K` grid has token `<eos>` at column `t`
(`finCheck` compares the full column against `[eos] * nrows`, a global and
not per-batch-item check): the executed loop equals the first `m` break-free
iterations for some `m ≤ maxLen - 2`, where stopping early (`m < maxLen - 2`)
implies the all-rows check held after step `2 + m - 1`, and after every
earlier step the check was false — i.e. while only a strict subset of rows is
finished the loop continues. -/
theorem c3_search_loop_early_stop (M : LogModel) (K : ℕ) (eos : ℤ)
    (dec : ℕ → List (List ℤ) → List (List (List ℚ))) (nrows maxLen : ℕ)
    (st : List (List ℤ) × List (WithBot ℚ)) :
    ∃ m, m ≤ maxLen - 2 ∧
      searchLoop M K eos dec nrows maxLen st = runFuel M K eos dec m 2 st ∧
      (m < maxLen - 2 → ∀ st2, runFuel M K eos dec m 2 st = .ok st2 →
        finCheck eos nrows (2 + m - 1) st2.1 = true) ∧
      (∀ j st2, j + 1 < m → runFuel M K eos dec (j + 1) 2 st = .ok st2 →
        finCheck eos nrows (2 + j) st2.1 = false) :=
  searchFuel_runFuel M K eos dec nrows (maxLen - 2) 2 st

theorem flatten_block_getD {α : Type} {m : ℕ} (hm : 0 < m) {L : List (List α)}
    (huni : ∀ x ∈ L, x.length = m) {b : ℕ} (hb : b < L.length) :
    (L.flatten.drop (b * m)).take m = L.getD b [] := by
  have hlen : L.flatten.length = L.length * m := flatten_length_uniform huni
  have hrowlen : (L.getD b []).length = m := by
    rw [List.getD_eq_getElem?_getD, List.getElem?_eq_getElem hb]
    exact huni _ (List.getElem_mem hb)
  apply List.ext_getElem?
  intro j
  by_cases hj : j < m
  · rw [List.getElem?_take_of_lt hj, List.getElem?_drop,
      flatten_getElem?_uniform hm b L huni j hj, List.getElem?_eq_getElem hb,
      Option.some_bind, List.getD_eq_getElem?_getD, List.getElem?_eq_getElem hb,
      Option.getD_some]
  · rw [List.getElem?_eq_none (by
      rw [List.length_take]
      exact le_trans (Nat.min_le_left _ _) (Nat.le_of_not_lt hj)),
      List.getElem?_eq_none (by rw [hrowlen]; exact Nat.le_of_not_lt hj)]

theorem initPix_getElem? {K : ℕ} {out0 : List (List (List ℚ))} {b : ℕ}
    (hb : b < (lastDists out0).length) :
    (initPix K out0)[b]? = some (topkPairs ((lastDists out0).getD b []) K) := by
  rw [initPix, List.getElem?_map, List.getElem?_eq_getElem hb,
    List.getD_eq_getElem?_getD, List.getElem?_eq_getElem hb]
  rfl

/-- Claim C10: after `init_vars` and after every `compute_k_best` step, each
batch item's block of `K` consecutive scores (rows `b*K .. b*K+K-1`) is
sorted non-increasingly — `topk` returns its values sorted descending, and
`init_vars` takes entrywise `log` (monotone) of per-item descending top-`K`
probabilities.  Consequently row `b*K` scores highest in its batch item and
the first `n_best` rows of a block are its `n_best` best-scoring ones. -/
theorem c10_blocks_sorted_desc :
    (∀ (M : LogModel) (K : ℕ) (initTok : ℤ) (maxLen : ℕ)
        (out0 : List (List (List ℚ))) (o : List (List ℤ)) (sc : List (WithBot ℚ)),
      init_vars M K initTok maxLen out0 = .ok (o, sc) →
      ∀ b : ℕ, ((sc.drop (b * K)).take K).Sorted (· ≥ ·)) ∧
    (∀ (s : StepIn) (B : ℕ) (o2 : List (List ℤ)) (s2 : List (WithBot ℚ)),
      StepWF s B →
      computeKBest s.M s.K s.eos s.outputs s.out s.logScores s.i = .ok (o2, s2) →
      ∀ b : ℕ, ((s2.drop (b * s.K)).take s.K).Sorted (· ≥ ·)) := by
  constructor
  · intro M K initTok maxLen out0 o sc hok b
    rw [init_vars] at hok
    by_cases h1 : ¬ (∀ d ∈ lastDists out0, K ≤ d.length)
    · rw [if_pos h1] at hok
      exact Except.noConfusion hok
    rw [if_neg h1] at hok
    by_cases h2 : maxLen < 2
    · rw [if_pos h2] at hok
      exact Except.noConfusion hok
    rw [if_neg h2] at hok
    have hvocab := not_not.1 h1
    have hsc : sc = initLogScores M K out0 :=
      (congrArg Prod.snd (Except.ok.inj hok)).symm
    rcases Nat.eq_zero_or_pos K with hK0 | hK
    · subst hK0
      simp
    have huni : ∀ x ∈ (initPix K out0).map (fun ps => ps.map (fun p => M.lg p.2)),
        x.length = K := by
      intro x hx
      obtain ⟨ps, hps, rfl⟩ := List.mem_map.1 hx
      rw [List.length_map]
      rw [initPix] at hps
      obtain ⟨d, hd, rfl⟩ := List.mem_map.1 hps
      rw [topkPairs_length]
      have := hvocab d hd
      omega
    rw [hsc, initLogScores]
    by_cases hb : b < ((initPix K out0).map (fun ps => ps.map (fun p => M.lg p.2))).length
    · rw [flatten_block_getD hK huni hb]
      have hb2 : b < (initPix K out0).length := by
        rw [List.length_map] at hb
        exact hb
      have hb3 : b < (lastDists out0).length := by
        rw [initPix, List.length_map] at hb2
        exact hb2
      have hrow : ((initPix K out0).map (fun ps => ps.map (fun p => M.lg p.2))).getD b []
          = (((initPix K out0).getD b []).map Prod.snd).map M.lg := by
        rw [List.getD_eq_getElem?_getD, List.getElem?_map, List.getElem?_eq_getElem hb2,
          List.getD_eq_getElem?_getD, List.getElem?_eq_getElem hb2, List.map_map]
        rfl
      rw [hrow, List.getD_eq_getElem?_getD, initPix_getElem? hb3, Option.getD_some]
      exact List.Pairwise.map M.lg (fun a c hac => M.lg_mono hac)
        (topkPairs_sorted_snd _ _)
    · rw [List.drop_eq_nil_of_le (by
        rw [flatten_length_uniform huni]
        exact Nat.mul_le_mul_right _ (Nat.le_of_not_lt hb))]
      simp
  · intro s B o2 s2 hwf hok b
    rw [computeKBest_ok hwf] at hok
    have hs2 : s2 = stepNewScores s :=
      (congrArg Prod.snd (Except.ok.inj hok)).symm
    rw [hs2]
    by_cases hb : b < B
    · rw [stepNewScores_block hwf hb]
      simp only [stepSel]
      exact topkPairs_sorted_snd _ _
    · rw [List.drop_eq_nil_of_le (by
        rw [stepNewScores_length hwf]
        exact Nat.mul_le_mul_right _ (Nat.le_of_not_lt hb))]
      simp

/-- Witness for C10 at the concrete inputs `outEx1` (for `init_vars`, with
`maxLen = 4`) and `sEx1` (for `compute_k_best`), batch item 0. -/
theorem c10_witness :
    (((initLogScores Mw 2 outEx1).drop (0 * 2)).take 2).Sorted (· ≥ ·) ∧
    (((stepNewScores sEx1).drop (0 * 2)).take 2).Sorted (· ≥ ·) :=
  ⟨c10_blocks_sorted_desc.1 Mw 2 1 4 outEx1 (initOutputs 2 1 4 outEx1)
      (initLogScores Mw 2 outEx1) (by rfl) 0,
    c10_blocks_sorted_desc.2 sEx1 1 (stepNewOutputs sEx1) (stepNewScores sEx1)
      (by decide) (@computeKBest_ok sEx1 1 (by decide)) 0⟩

/-- Claim C4 names a code bug: `_length` implements "position of the first
`<eos>`, else full length" (its own docstring) only for rows whose unique
`<eos>` sits at a nonzero position.  The first conjunct shows this intended
case.  The second shows that on a row with two `<eos>` tokens — the common
shape once a beam finishes before the loop's last step, since a finished row
keeps appending `<eos>` — `bool()` of the multi-element `np.nonzero` index
array raises `ValueError` (`none` here), instead of trimming at the first
`<eos>`.  The third shows that an `<eos>` at position 0 makes the index
array `[0]`, which is falsy, so the code returns the full length instead
of 0. -/
theorem c4_trim_first_eos_code_bug :
    _length [1, 3, 2, 0] 2 = some 2 ∧
    _length [1, 3, 2, 2] 2 = none ∧
    _length [2, 3] 2 = some 2 := by
  exact ⟨by decide, by decide, by decide⟩

/-- Claim C5 names a code bug: with `coff = 1` (so the power map is the
identity) and unit penalty factors (`length 1` gives `((1+5)/6)^coff = 1`),
`length_normalize` returns the penalized scores sorted ASCENDING — the worst
hypothesis first — with indices `[1, 0]`, because `np.argsort` sorts
ascending and the `[::-1]` that was meant to flip it reverses the batch axis
instead of the per-item axis (for `B > 1` it additionally pairs batch item
`i` with batch item `B-1-i`'s permutation).  The claim (and the `[:, 0]` /
`[:, :n_best]` selection in `beam_search`) requires descending order, i.e.
`([[-1, -2]], [[0, 1]])` here. -/
theorem c5_normalize_ascending_code_bug :
    length_normalize (fun a b => a / b) (0 : ℚ) id [[1, 1]] [[-1, -2]]
      = ([[-2, -1]], [[1, 0]]) := by
  decide

/-- Claim C7: when the leading dimension of the decoder distribution `out`
differs from the number of beam-state rows, `compute_k_best` fails rather
than proceeding: `check_eos = (outputs[:, i-1] == eos).view(row_b, 1)` with
`row_b = len(out)` raises a shape error (the spec's `DimensionMismatch`)
whenever `len(outputs) ≠ len(out)`.  (The `topk` at line 91 runs first, so
the distributions must be wide enough for the failure to be the shape
error.) -/
theorem c7_dimension_mismatch (M : LogModel) (K : ℕ) (eos : ℤ)
    (outputs : List (List ℤ)) (out : List (List (List ℚ)))
    (logScores : List (WithBot ℚ)) (i : ℕ)
    (hvocab : ∀ d ∈ lastDists out, K ≤ d.length)
    (hmism : outputs.length ≠ out.length) :
    computeKBest M K eos outputs out logScores i = .error .dimensionMismatch := by
  rw [computeKBest, if_neg (not_not.2 hvocab), if_pos hmism]

/-- Witness for C7: a one-row distribution against an empty beam state. -/
theorem c7_witness :
    computeKBest Mw 1 2 [] [[[1]]] [] 1 = .error .dimensionMismatch :=
  c7_dimension_mismatch Mw 1 2 [] [[[1]]] [] 1 (by decide) (by decide)

/-- Claim C9: requesting unknown-token replacement without supplying source
tokens downgrades the request to a no-op (the source logs a warning —
`logging.warn` at line 220, a side effect outside the pure embedding — and
skips `replace_unknown`): the call does not fail, and its result is
identical, whatever the model, inputs and other options, to the same call
without replacement requested. -/
theorem c9_replace_unk_without_src_noop (M : LogModel) (K maxLen : ℕ)
    (initTok eosTok : ℤ) (itos : ℤ → String) (out0 : List (List (List ℚ)))
    (dec : ℕ → List (List ℤ) → List (List (List ℚ))) (attn : Attn)
    (n_best : ℕ) (length_norm : Option (ℚ → ℚ)) (sel : ℕ × ℕ) :
    beam_search M K maxLen initTok eosTok itos out0 dec attn none n_best
        length_norm (some sel)
      = beam_search M K maxLen initTok eosTok itos out0 dec attn none n_best
        length_norm none := rfl

/-- Counterexample to Claim C6: a `beam_search` call with
`n_best = 3 > beam_size = 2` does NOT fail fast with any configuration
error — it returns successfully, silently truncated to the 2 available
hypotheses per batch item. -/
theorem c6_counterexample :
    beam_search Mw 2 3 1 2 itosEx outEx0 decEx [] none 3 none none
      = .ok (BSOut.multi [[["a", "a"], ["a", "b"]]]) := by
  rfl

/-- Claim C6, amended: a beam width exceeding the vocabulary size makes the
`topk` call inside `init_vars` fail with a runtime error — after the encoder
and the first decoder step have already run, and with no dedicated
`InvalidConfiguration` check anywhere; `n_best > beam_size` is not detected
at all: the final `translated_sentences[:, :n_best]` slice silently
truncates to the `beam_size` hypotheses that exist (concrete run: `n_best =
3`, `beam_size = 2`, two hypotheses returned). -/
theorem c6_amended_no_fail_fast :
    (∀ (M : LogModel) (K : ℕ) (initTok : ℤ) (maxLen : ℕ)
        (out0 : List (List (List ℚ))),
      ¬ (∀ d ∈ lastDists out0, K ≤ d.length) →
      init_vars M K initTok maxLen out0 = .error .topkOutOfRange) ∧
    (beam_search Mw 2 3 1 2 itosEx outEx0 decEx [] none 3 none none
        = .ok (BSOut.multi [[["a", "a"], ["a", "b"]]]) ∧
      ([[["a", "a"], ["a", "b"]]] : List (List (List String))).all
        (fun beams => beams.length == 2) = true) := by
  refine ⟨?_, by rfl, by rfl⟩
  intro M K initTok maxLen out0 h
  rw [init_vars, if_pos h]

/-- Witness for C6's amended theorem: beam width 3 against a vocabulary of
size 2 makes `init_vars` fail with the `topk` error. -/
theorem c6_witness :
    init_vars Mw 3 1 4 [[[1/2, 1/2]]] = .error .topkOutOfRange :=
  c6_amended_no_fail_fast.1 Mw 3 1 4 [[[1/2, 1/2]]] (by decide)

/-- `argmaxIdx` returns a valid index of a nonempty row, and the entry there
is maximal (first occurrence on ties). -/
theorem argmaxIdx_spec {l : List ℚ} (hl : 0 < l.length) :
    argmaxIdx l < l.length ∧ ∀ w ∈ l, w ≤ l.getD (argmaxIdx l) 0 := by
  have hne : l.enum ≠ [] := by
    intro h
    rw [List.enum_eq_nil] at h
    rw [h] at hl
    simp at hl
  obtain ⟨m, hm⟩ : ∃ m, l.enum.argmax Prod.snd = some m := by
    cases hargmax : l.enum.argmax Prod.snd with
    | none => exact absurd (List.argmax_eq_none.1 hargmax) hne
    | some m => exact ⟨m, rfl⟩
  have hidx : argmaxIdx l = m.1 := by
    rw [argmaxIdx, hm]
    rfl
  have hmem : m ∈ l.enum := List.argmax_mem hm
  have hget : l[m.1]? = some m.2 := List.mem_enum_iff_getElem?.1 hmem
  have hlt : m.1 < l.length := by
    by_contra hge
    rw [List.getElem?_eq_none (Nat.le_of_not_lt hge)] at hget
    exact Option.noConfusion hget
  have hgetD : l.getD m.1 0 = m.2 := by
    rw [List.getD_eq_getElem?_getD, hget]
    rfl
  refine ⟨by rw [hidx]; exact hlt, ?_⟩
  intro w hw
  obtain ⟨idx, hidx2⟩ := List.mem_iff_getElem?.1 hw
  have hpair : (idx, w) ∈ l.enum := List.mem_enum_iff_getElem?.2 hidx2
  have := List.le_of_mem_argmax hpair hm
  rw [hidx, hgetD]
  exact this

/-- Counterexample to Claim C8: a `replace_unknown` call on a single beam
whose replaced row has length 2 — here `outputs = [[["a", "<unk>"]]]` — does
NOT return the substituted row: the replaced rows are uniform in length, so
the final `np.array(replaced)` builds a 2-D `(1, 2)` string array whose
`reshape` to the `(1, 1)` outputs shape raises `ValueError`.  The same
happens whenever the attention tensor truncates every row to one common
target length — the claim's own truncation case. -/
theorem c8_counterexample :
    replace_unknown c8Out c8Sent c8Attn (0, 0) "<unk>" = .error .valueError := by
  rfl

/-- Claim C8, amended: whenever the final `np.array(...).reshape(outputs.
shape)` succeeds — the replaced rows are ragged, i.e. two of them (flat
indices `f1, f2` below) have different lengths `min tgt_len orig_len` —
`replace_unknown` returns a `[batch, beam]` result in which exactly the
`unknown_token` positions are substituted, each with the source token at the
argmax of that position's selected cross-attention row (a position of
maximal attention weight); every other position passes through unchanged,
and per beam the result row has length `min tgt_len orig_len` — truncation
to the shorter length exactly when the attention tensor is narrower than the
decoded output.  (The `2 ≤ tgt_len` hypothesis keeps the statement inside
the regime where the list model of `itemgetter` is faithful; `beam_search`
always decodes prefixes of length `≥ 2`.) -/
theorem c8_replace_unknown (outputs : List (List (List String)))
    (sentences : List (List String)) (attn : Attn) (sel : ℕ × ℕ)
    (unk : String) (B K : ℕ)
    (hB : 0 < B) (hK : 0 < K)
    (houtB : outputs.length = B)
    (hsent : sentences.length = B)
    (hbeam : ∀ row ∈ outputs, row.length = K)
    (hattn : (usedAttn attn sel).length = B * K)
    (htgt : ∀ f, f < B * K → 2 ≤ ((usedAttn attn sel).getD f []).length)
    (hsrc : ∀ f, f < B * K → ∀ a ∈ (usedAttn attn sel).getD f [],
      a.length = (sentences.getD (f / K) []).length ∧ 0 < a.length)
    (hragged : ∃ f1, f1 < B * K ∧ ∃ f2, f2 < B * K ∧
      min (((usedAttn attn sel).getD f1 []).length)
          (((outputs.getD (f1 / K) []).getD (f1 % K) []).length)
        ≠ min (((usedAttn attn sel).getD f2 []).length)
            (((outputs.getD (f2 / K) []).getD (f2 % K) []).length)) :
    ∃ res, replace_unknown outputs sentences attn sel unk = .ok res ∧
      ∀ b, b < B → ∀ k, k < K →
        ((res.getD b []).getD k []).length
          = min (((usedAttn attn sel).getD (b * K + k) []).length)
              (((outputs.getD b []).getD k []).length) ∧
        ∀ j, j < min (((usedAttn attn sel).getD (b * K + k) []).length)
              (((outputs.getD b []).getD k []).length) →
          (((outputs.getD b []).getD k []).getD j "" = unk →
            ((res.getD b []).getD k []).getD j ""
              = (sentences.getD b []).getD
                  (argmaxIdx (((usedAttn attn sel).getD (b * K + k) []).getD j [])) "" ∧
            ∀ w ∈ ((usedAttn attn sel).getD (b * K + k) []).getD j [],
              w ≤ (((usedAttn attn sel).getD (b * K + k) []).getD j []).getD
                  (argmaxIdx (((usedAttn attn sel).getD (b * K + k) []).getD j [])) 0) ∧
          (((outputs.getD b []).getD k []).getD j "" ≠ unk →
            ((res.getD b []).getD k []).getD j ""
              = ((outputs.getD b []).getD k []).getD j "") := by
  have hlen0 : (outputs.getD 0 []).length = K := by
    have h0 : 0 < outputs.length := by omega
    rw [List.getD_eq_getElem?_getD, List.getElem?_eq_getElem h0, Option.getD_some]
    exact hbeam _ (List.getElem_mem h0)
  have hrowR : ∀ b, b < B → ∀ k, k < K →
      (replacedRows outputs sentences attn sel unk)[b * K + k]?
        = some ((((((usedAttn attn sel).getD (b * K + k) []).map argmaxIdx).map
              (fun j => (sentences.getD b []).getD j "")).zip
            ((outputs.getD b []).getD k [])).map
            (fun rt => if rt.2 = unk then rt.1 else rt.2)) := by
    intro b hb k hk
    have hf : b * K + k < B * K := by
      calc b * K + k < b * K + K := by omega
        _ = (b + 1) * K := by ring
        _ ≤ B * K := Nat.mul_le_mul_right _ (by omega)
    have hUAlt : b * K + k < (usedAttn attn sel).length := by omega
    have hUAget : (usedAttn attn sel)[b * K + k]?
        = some ((usedAttn attn sel).getD (b * K + k) []) := by
      rw [List.getD_eq_getElem?_getD, List.getElem?_eq_getElem hUAlt]
      rfl
    have hblt : b < outputs.length := by omega
    have hrowb : outputs.getD b [] = outputs[b] := by
      rw [List.getD_eq_getElem?_getD, List.getElem?_eq_getElem hblt]
      rfl
    have hklt : k < (outputs.getD b []).length := by
      rw [hrowb, hbeam _ (List.getElem_mem hblt)]
      exact hk
    have hklt2 : k < outputs[b].length := by
      rw [← hrowb]
      exact hklt
    have horigget : outputs.flatten[b * K + k]? = some ((outputs.getD b []).getD k []) := by
      rw [flatten_getElem?_uniform hK b outputs hbeam k hk, List.getElem?_eq_getElem hblt,
        Option.some_bind, hrowb, List.getD_eq_getElem?_getD,
        List.getElem?_eq_getElem hklt2]
      rfl
    -- the computed beam size equals K
    have hbs : ((usedAttn attn sel).map (fun tr => tr.map argmaxIdx)).length
        / sentences.length = K := by
      rw [List.length_map, hattn, hsent, Nat.mul_comm, Nat.mul_div_cancel _ (by omega : 0 < B)]
    -- select_id_src at row f
    have hsid : ((usedAttn attn sel).map (fun tr => tr.map argmaxIdx))[b * K + k]?
        = some (((usedAttn attn sel).getD (b * K + k) []).map argmaxIdx) := by
      rw [List.getElem?_map, hUAget]
      rfl
    -- replace_tokens at row f
    have hrt : (((usedAttn attn sel).map (fun tr => tr.map argmaxIdx)).enum.map
        (fun bi => bi.2.map (fun j => (sentences.getD
          (bi.1 / (((usedAttn attn sel).map (fun tr => tr.map argmaxIdx)).length
            / sentences.length)) []).getD j "")))[b * K + k]?
        = some ((((usedAttn attn sel).getD (b * K + k) []).map argmaxIdx).map
            (fun j => (sentences.getD b []).getD j "")) := by
      rw [List.getElem?_map, List.getElem?_enum, hsid]
      simp only [Option.map_some']
      congr 2
      rw [hbs, nat_block_div hk]
    -- the zipped pair at row f
    have hzip : (outputs.flatten.zip
        (((usedAttn attn sel).map (fun tr => tr.map argmaxIdx)).enum.map
          (fun bi => bi.2.map (fun j => (sentences.getD
            (bi.1 / (((usedAttn attn sel).map (fun tr => tr.map argmaxIdx)).length
              / sentences.length)) []).getD j ""))))[b * K + k]?
        = some ((outputs.getD b []).getD k [],
            (((usedAttn attn sel).getD (b * K + k) []).map argmaxIdx).map
              (fun j => (sentences.getD b []).getD j "")) := by
      exact List.getElem?_zip_eq_some.2 ⟨horigget, hrt⟩
    -- the replaced row at flat index f
    have hrp : ((outputs.flatten.zip
        (((usedAttn attn sel).map (fun tr => tr.map argmaxIdx)).enum.map
          (fun bi => bi.2.map (fun j => (sentences.getD
            (bi.1 / (((usedAttn attn sel).map (fun tr => tr.map argmaxIdx)).length
              / sentences.length)) []).getD j "")))).map
        (fun ro => (ro.2.zip ro.1).map
          (fun rt => if rt.2 = unk then rt.1 else rt.2)))[b * K + k]?
        = some ((((((usedAttn attn sel).getD (b * K + k) []).map argmaxIdx).map
              (fun j => (sentences.getD b []).getD j "")).zip
            ((outputs.getD b []).getD k [])).map
            (fun rt => if rt.2 = unk then rt.1 else rt.2)) := by
      rw [List.getElem?_map, hzip]
      rfl
    simp only [replacedRows]
    exact hrp
  have hrplen : (replacedRows outputs sentences attn sel unk).length = B * K := by
    simp only [replacedRows]
    rw [List.length_map, List.length_zip, flatten_length_uniform hbeam, houtB,
      List.length_map, List.enum_length, List.length_map, hattn]
    omega
  have hrowlen : ∀ f, f < B * K →
      ((replacedRows outputs sentences attn sel unk).getD f []).length
        = min (((usedAttn attn sel).getD f []).length)
            (((outputs.getD (f / K) []).getD (f % K) []).length) := by
    intro f hflt
    have hb' : f / K < B := (Nat.div_lt_iff_lt_mul hK).2 hflt
    have hk' : f % K < K := Nat.mod_lt _ hK
    have hfk : f / K * K + f % K = f := by
      rw [Nat.mul_comm]
      exact Nat.div_add_mod f K
    have h1 := hrowR (f / K) hb' (f % K) hk'
    rw [hfk] at h1
    rw [List.getD_eq_getElem?_getD, h1, Option.getD_some, List.length_map,
      List.length_zip, List.length_map, List.length_map]
  have huni : ((replacedRows outputs sentences attn sel unk).all
      (fun r => r.length
        == ((replacedRows outputs sentences attn sel unk).getD 0 []).length)) = false := by
    obtain ⟨f1, hflt1, f2, hflt2, hneq⟩ := hragged
    cases hall : (replacedRows outputs sentences attn sel unk).all
        (fun r => r.length
          == ((replacedRows outputs sentences attn sel unk).getD 0 []).length) with
    | false => rfl
    | true =>
      exfalso
      have hmemlen : ∀ f, f < B * K →
          (((replacedRows outputs sentences attn sel unk).getD f []).length
            == ((replacedRows outputs sentences attn sel unk).getD 0 []).length) = true := by
        intro f hflt
        have hlt : f < (replacedRows outputs sentences attn sel unk).length := by
          rw [hrplen]
          exact hflt
        have hmem : (replacedRows outputs sentences attn sel unk).getD f []
            ∈ replacedRows outputs sentences attn sel unk := by
          rw [List.getD_eq_getElem _ _ hlt]
          exact List.getElem_mem hlt
        exact List.all_eq_true.mp hall _ hmem
      have h1 := beq_iff_eq.mp (hmemlen f1 hflt1)
      have h2 := beq_iff_eq.mp (hmemlen f2 hflt2)
      rw [hrowlen f1 hflt1] at h1
      rw [hrowlen f2 hflt2] at h2
      exact hneq (h1.trans h2.symm)
  have hnil : replacedRows outputs sentences attn sel unk ≠ [] := by
    intro h
    rw [h] at hrplen
    simp only [List.length_nil] at hrplen
    have := Nat.mul_pos hB hK
    omega
  have hok : replace_unknown outputs sentences attn sel unk
      = .ok (groupsOf K (replacedRows outputs sentences attn sel unk)) := by
    rw [replace_unknown, houtB, hlen0, npArrayReshape, if_neg hnil,
      if_neg (by rw [huni]; exact Bool.false_ne_true), if_pos hrplen]
  refine ⟨groupsOf K (replacedRows outputs sentences attn sel unk), hok, ?_⟩
  intro b hb k hk
  have hf : b * K + k < B * K := by
    calc b * K + k < b * K + K := by omega
      _ = (b + 1) * K := by ring
      _ ≤ B * K := Nat.mul_le_mul_right _ (by omega)
  have hres : (((groupsOf K (replacedRows outputs sentences attn sel unk)).getD b []).getD k [])
      = (((((usedAttn attn sel).getD (b * K + k) []).map argmaxIdx).map
            (fun j => (sentences.getD b []).getD j "")).zip
          ((outputs.getD b []).getD k [])).map
          (fun rt => if rt.2 = unk then rt.1 else rt.2) := by
    have hble : (b + 1) * K ≤ B * K := Nat.mul_le_mul_right K (by omega)
    rw [List.getD_eq_getElem?_getD (groupsOf _ _),
      groupsOf_getElem? K b _ (hrplen ▸ hble) hK, Option.getD_some,
      List.getD_eq_getElem?_getD, List.getElem?_take_of_lt hk, List.getElem?_drop,
      hrowR b hb k hk, Option.getD_some]
  rw [hres]
  constructor
  · rw [List.length_map, List.length_zip, List.length_map, List.length_map]
  · intro j hj
    have hja : j < ((usedAttn attn sel).getD (b * K + k) []).length :=
      Nat.lt_of_lt_of_le hj (Nat.min_le_left _ _)
    have hjo : j < ((outputs.getD b []).getD k []).length :=
      Nat.lt_of_lt_of_le hj (Nat.min_le_right _ _)
    have haj : ((usedAttn attn sel).getD (b * K + k) [])[j]?
        = some (((usedAttn attn sel).getD (b * K + k) []).getD j []) := by
      rw [List.getElem?_eq_getElem hja, List.getD_eq_getElem _ _ hja]
    have horjj : ((outputs.getD b []).getD k [])[j]?
        = some (((outputs.getD b []).getD k []).getD j "") := by
      rw [List.getElem?_eq_getElem hjo, List.getD_eq_getElem _ _ hjo]
    have hreplfj : ((((usedAttn attn sel).getD (b * K + k) []).map argmaxIdx).map
        (fun j => (sentences.getD b []).getD j ""))[j]?
        = some ((sentences.getD b []).getD
            (argmaxIdx (((usedAttn attn sel).getD (b * K + k) []).getD j [])) "") := by
      rw [List.getElem?_map, List.getElem?_map, haj]
      rfl
    have hzipj : (((((usedAttn attn sel).getD (b * K + k) []).map argmaxIdx).map
          (fun j => (sentences.getD b []).getD j "")).zip
          ((outputs.getD b []).getD k []))[j]?
        = some ((sentences.getD b []).getD
            (argmaxIdx (((usedAttn attn sel).getD (b * K + k) []).getD j [])) "",
          ((outputs.getD b []).getD k []).getD j "") :=
      List.getElem?_zip_eq_some.2 ⟨hreplfj, horjj⟩
    have hRj : (((((((usedAttn attn sel).getD (b * K + k) []).map argmaxIdx).map
          (fun j => (sentences.getD b []).getD j "")).zip
          ((outputs.getD b []).getD k [])).map
          (fun rt => if rt.2 = unk then rt.1 else rt.2)).getD j "")
        = if ((outputs.getD b []).getD k []).getD j "" = unk then
            (sentences.getD b []).getD
              (argmaxIdx (((usedAttn attn sel).getD (b * K + k) []).getD j [])) ""
          else ((outputs.getD b []).getD k []).getD j "" := by
      rw [List.getD_eq_getElem?_getD, List.getElem?_map, hzipj]
      rfl
    constructor
    · intro hunk
      have hmem : ((usedAttn attn sel).getD (b * K + k) []).getD j []
          ∈ (usedAttn attn sel).getD (b * K + k) [] := List.getElem?_mem haj
      have hrow0 : 0 < (((usedAttn attn sel).getD (b * K + k) []).getD j []).length :=
        (hsrc _ hf _ hmem).2
      refine ⟨?_, (argmaxIdx_spec hrow0).2⟩
      rw [hRj, if_pos hunk]
    · intro hne
      rw [hRj, if_neg hne]

theorem c8_witness :
    (0 : ℕ) < 2 ∧
    (∃ res, replace_unknown c8OutR c8Sent c8AttnR (0, 0) "<unk>" = .ok res ∧
      ∀ b, b < 1 → ∀ k, k < 2 →
        ((res.getD b []).getD k []).length
          = min (((usedAttn c8AttnR (0, 0)).getD (b * 2 + k) []).length)
              (((c8OutR.getD b []).getD k []).length) ∧
        ∀ j, j < min (((usedAttn c8AttnR (0, 0)).getD (b * 2 + k) []).length)
              (((c8OutR.getD b []).getD k []).length) →
          (((c8OutR.getD b []).getD k []).getD j "" = "<unk>" →
            ((res.getD b []).getD k []).getD j ""
              = (c8Sent.getD b []).getD
                  (argmaxIdx (((usedAttn c8AttnR (0, 0)).getD (b * 2 + k) []).getD j [])) "" ∧
            ∀ w ∈ ((usedAttn c8AttnR (0, 0)).getD (b * 2 + k) []).getD j [],
              w ≤ (((usedAttn c8AttnR (0, 0)).getD (b * 2 + k) []).getD j []).getD
                  (argmaxIdx (((usedAttn c8AttnR (0, 0)).getD (b * 2 + k) []).getD j [])) 0) ∧
          (((c8OutR.getD b []).getD k []).getD j "" ≠ "<unk>" →
            ((res.getD b []).getD k []).getD j ""
              = ((c8OutR.getD b []).getD k []).getD j "")) :=
  ⟨by decide,
    c8_replace_unknown c8OutR c8Sent c8AttnR (0, 0) "<unk>" 1 2 (by decide) (by decide)
      (by decide) (by decide) (by decide) (by decide) (by decide) (by decide)
      ⟨0, by decide, 1, by decide, by decide⟩⟩
